import Mathlib

/-!
Verification development for the word-to-markdown conversion pipeline.

The source is a TypeScript module that post-processes HTML extracted from a
Word document into GitHub-flavored Markdown.  Strings are modelled as
`List Char` (sequences of Unicode scalar values).  Each definition below is a
shallow embedding of the correspondingly named function of the source module;
external libraries (mammoth, turndown, markdownlint, node-html-parser) are
modelled only at the boundary actually exercised by the source code.
-/

/-! ## JavaScript character classes

The regular expressions of the source use the JS classes: a whitespace class
(as matched by a backslash-s pattern), line terminators (which the multiline
caret anchors on), decimal digits, and word characters. -/

/-- The exact character set matched by the JS regex whitespace class:
WhiteSpace plus LineTerminator of ECMA-262. -/
def jsWsChars : List Char :=
  ['\t', '\n', '\x0b', '\x0c', '\r', ' ', ' ', ' ', ' ',
   ' ', ' ', ' ', ' ', ' ', ' ', ' ',
   ' ', ' ', ' ', ' ', ' ', ' ', ' ',
   '　', '﻿']

/-- Membership in the JS regex whitespace class. -/
def isJsWs (c : Char) : Bool := jsWsChars.contains c

/-- JS LineTerminator characters: the positions a multiline caret matches after. -/
def isLineTerm (c : Char) : Bool :=
  c == '\n' || c == '\r' || c == ' ' || c == ' '

/-- JS digit class: the ten ASCII decimal digits. -/
def isAsciiDigit (c : Char) : Bool := '0' ≤ c && c ≤ '9'

/-- JS word-character class: ASCII letters, digits and underscore. -/
def isWordChar (c : Char) : Bool :=
  ('a' ≤ c && c ≤ 'z') || ('A' ≤ c && c ≤ 'Z') || isAsciiDigit c || c == '_'

/-! ## Extension validation (validateFileExtension, main.ts lines 50 to 68)

The source computes the extension of the input path with the Node function
path.extname, lowercases it, and throws UnsupportedFileError exactly when the
result is the string dot-doc.  The Node posix extname takes the suffix of the
last path component (trailing slashes ignored) starting at its last dot,
except that it returns the empty string when that dot is the leading character
of the component or the component is exactly two dots. -/

/-- Last path component of a posix path, with trailing slashes stripped:
the portion of the path after the last remaining slash. -/
def baseName (p : List Char) : List Char :=
  ((p.reverse.dropWhile (fun c => c == '/')).takeWhile (fun c => c != '/')).reverse

/-- Node posix path.extname applied to a basename, per the algorithm in
lib/path.js: empty when the basename has no dot, when its last dot is the
leading character, or when the component is exactly two dots; otherwise the
suffix of the basename starting at its last dot (computed here through the
reversed basename: the characters after the last dot are the reversed
maximal dot-free suffix). -/
def extnameOfBase (bn : List Char) : List Char :=
  if (bn.reverse.takeWhile (fun c => c != '.')).length = bn.reverse.length then []
  else if (bn.reverse.takeWhile (fun c => c != '.')).length + 1 = bn.reverse.length then []
  else if bn = ['.', '.'] then []
  else '.' :: (bn.reverse.takeWhile (fun c => c != '.')).reverse

/-- Node posix path.extname. -/
def extname (p : List Char) : List Char := extnameOfBase (baseName p)

/-- True exactly when validateFileExtension throws UnsupportedFileError: the
lowercased extension equals dot-doc.  The source lowercases with the JS
toLowerCase; ASCII lowercasing (Char.toLower) agrees with it on every
comparison against the ASCII string dot-doc, since no non-ASCII character
lowercases to a dot, d, o or c. -/
def validateFileExtension (p : List Char) : Bool :=
  (extname p).map Char.toLower == ".doc".data

/-- Outcome of the path branch of convert (main.ts lines 262 to 274): a string
input is first validated, and only if validation does not throw is the
external mammoth extraction invoked. -/
inductive ConvertOutcome where
  | unsupportedFormatError : ConvertOutcome
  | extractionAttempted : ConvertOutcome
deriving DecidableEq

/-- The synchronous start of convert on a file-path input: throw
UnsupportedFileError before extraction, or reach the extraction call. -/
def convertPathStep (p : List Char) : ConvertOutcome :=
  if validateFileExtension p then ConvertOutcome.unsupportedFormatError
  else ConvertOutcome.extractionAttempted

/-! ## Entity decoding (decodeHtmlEntities, main.ts lines 70 to 129)

A bounded loop of scan-and-replace passes.  One pass replaces every token
matching the pattern ampersand, one or more word or hash characters,
semicolon.  A token is decoded through the fixed named-entity table, then as
a decimal character reference, then as a hexadecimal character reference,
and is otherwise left unchanged. -/

/-- Characters admitted inside an entity token by the scan regex class. -/
def entChar (c : Char) : Bool := c == '#' || isWordChar c

/-- The fixed named-entity table of the source (decodeMap). -/
def namedEntities : List (List Char × List Char) :=
  [("&amp;".data, "&".data),
   ("&quot;".data, "\"".data),
   ("&#39;".data, "'".data),
   ("&#x27;".data, "'".data),
   ("&apos;".data, "'".data),
   ("&nbsp;".data, " ".data),
   ("&copy;".data, "©".data),
   ("&reg;".data, "®".data),
   ("&trade;".data, "™".data),
   ("&hellip;".data, "…".data),
   ("&mdash;".data, "—".data),
   ("&ndash;".data, "–".data),
   ("&lsquo;".data, "‘".data),
   ("&rsquo;".data, "’".data),
   ("&ldquo;".data, "“".data),
   ("&rdquo;".data, "”".data)]

/-- First-match association lookup over the entity table. -/
def lookupEntity : List (List Char × List Char) → List Char → Option (List Char)
  | [], _ => none
  | (k, v) :: rest, tok => if tok = k then some v else lookupEntity rest tok

/-- JS String.fromCharCode: the argument is reduced modulo 2 to the 16 and
yields that UTF-16 code unit.  A code unit in the surrogate range is not a
Unicode scalar value and cannot be carried by our character model; it is
represented by U+FFFD.  No theorem below depends on the surrogate case. -/
def fromCharCode (n : Nat) : Char :=
  let m := n % 65536
  if h : m.isValidChar then Char.ofNatAux m h else '�'

/-- Value of a decimal digit string, as computed by parseInt base 10. -/
def decDigitsVal (ds : List Char) : Nat :=
  ds.foldl (fun a c => a * 10 + (c.toNat - 48)) 0

/-- Hexadecimal digit class of the source regex. -/
def isHexDigit (c : Char) : Bool :=
  isAsciiDigit c || ('a' ≤ c && c ≤ 'f') || ('A' ≤ c && c ≤ 'F')

/-- Value of one hexadecimal digit. -/
def hexDigitVal (c : Char) : Nat :=
  if isAsciiDigit c then c.toNat - 48
  else if 'a' ≤ c && c ≤ 'f' then c.toNat - 87
  else c.toNat - 55

/-- Value of a hexadecimal digit string, as computed by parseInt base 16. -/
def hexDigitsVal (ds : List Char) : Nat :=
  ds.foldl (fun a c => a * 16 + hexDigitVal c) 0

/-- Decimal body of a token, when the token matches the anchored pattern
ampersand, hash, one or more decimal digits, semicolon. -/
def numBody : List Char → Option (List Char)
  | '&' :: '#' :: rest =>
      match rest.dropWhile isAsciiDigit with
      | [';'] =>
          if rest.takeWhile isAsciiDigit ≠ [] then some (rest.takeWhile isAsciiDigit)
          else none
      | _ => none
  | _ => none

/-- Hexadecimal body of a token, when the token matches the anchored
case-insensitive pattern ampersand, hash, x, one or more hex digits,
semicolon. -/
def hexBody : List Char → Option (List Char)
  | '&' :: '#' :: x :: rest =>
      if x == 'x' || x == 'X' then
        match rest.dropWhile isHexDigit with
        | [';'] =>
            if rest.takeWhile isHexDigit ≠ [] then some (rest.takeWhile isHexDigit)
            else none
        | _ => none
      else none
  | _ => none

/-- Replacement for one matched entity token: named table first, then decimal
reference, then hexadecimal reference, otherwise the token itself. -/
def decodeEntity (tok : List Char) : List Char :=
  match lookupEntity namedEntities tok with
  | some r => r
  | none =>
      match numBody tok with
      | some ds => [fromCharCode (decDigitsVal ds)]
      | none =>
          match hexBody tok with
          | some hs => [fromCharCode (hexDigitsVal hs)]
          | none => tok

/-- One scan-and-replace pass over the input (the global regex replace),
written with explicit fuel so that it is structurally recursive; the wrapper
entPass supplies sufficient fuel.  At an ampersand the maximal run of token
characters followed by a semicolon forms a token which is replaced; any
failed match leaves the ampersand and scanning continues. -/
def entPassF : Nat → List Char → List Char
  | _, [] => []
  | 0, l => l
  | f + 1, c :: t =>
      if c == '&' then
        match t.dropWhile entChar with
        | ';' :: r =>
            if t.takeWhile entChar ≠ [] then
              decodeEntity ('&' :: t.takeWhile entChar ++ [';']) ++ entPassF f r
            else c :: entPassF f t
        | _ => c :: entPassF f t
      else c :: entPassF f t

/-- One scan-and-replace pass of decodeHtmlEntities. -/
def entPass (l : List Char) : List Char := entPassF l.length l

/-- The bounded loop of decodeHtmlEntities: the flag is the hasEntities
variable of the source, the fuel is the maxIterations counter starting at 3.
The loop stops when the fuel is exhausted, and after any pass that either
changed nothing or left no ampersand. -/
def decodeLoopF : Nat → Bool → List Char → List Char
  | 0, _, s => s
  | _ + 1, false, s => s
  | n + 1, true, s =>
      let d := entPass s
      decodeLoopF n (!(d == s) && d.contains '&') d

/-- decodeHtmlEntities: run the bounded loop with initial flag set exactly
when the input contains an ampersand. -/
def decodeHtmlEntities (l : List Char) : List Char :=
  decodeLoopF 3 (l.contains '&') l

/-- Number of scan-and-replace passes the loop of decodeHtmlEntities
executes, mirroring decodeLoopF. -/
def decodeCountF : Nat → Bool → List Char → Nat
  | 0, _, _ => 0
  | _ + 1, false, _ => 0
  | n + 1, true, s =>
      let d := entPass s
      1 + decodeCountF n (!(d == s) && d.contains '&') d

/-- Number of passes executed by decodeHtmlEntities on the given input. -/
def decodePassCount (l : List Char) : Nat :=
  decodeCountF 3 (l.contains '&') l

/-- Iterated application of one pass, to state what the loop computes. -/
def entPassIter : Nat → List Char → List Char
  | 0, s => s
  | n + 1, s => entPassIter n (entPass s)

/-! ## Numbered lists to bullets (convertNumberedListsToBullets, line 240)

The global multiline regex replace: at every line start, optional whitespace,
one or more digits, a literal period and one whitespace character are
replaced by the captured leading whitespace followed by hyphen space. -/

/-- Attempt the anchored match of the numbered-list pattern at the head of
the input: greedy whitespace run, nonempty digit run, a period, one
whitespace character.  Returns the leading whitespace run, the single
whitespace character consumed after the period, and the remainder. -/
def tryMatch (l : List Char) : Option (List Char × Char × List Char) :=
  let ws := l.takeWhile isJsWs
  let l1 := l.dropWhile isJsWs
  let ds := l1.takeWhile isAsciiDigit
  match l1.dropWhile isAsciiDigit with
  | '.' :: w :: rest => if ds ≠ [] ∧ isJsWs w then some (ws, w, rest) else none
  | _ => none

/-- The left-to-right global replace scan, with explicit fuel for structural
recursion (the wrapper convertCore supplies sufficient fuel).  The boolean
records whether the current position is a line start, where the multiline
caret can match: position zero or just after a line terminator. -/
def convertCoreF : Nat → Bool → List Char → List Char
  | _, _, [] => []
  | 0, _, l => l
  | f + 1, b, c :: t =>
      if b then
        match tryMatch (c :: t) with
        | some (ws, w, rest) => ws ++ '-' :: ' ' :: convertCoreF f (isLineTerm w) rest
        | none => c :: convertCoreF f (isLineTerm c) t
      else c :: convertCoreF f (isLineTerm c) t

/-- The global replace scan from a given line-start state. -/
def convertCore (b : Bool) (l : List Char) : List Char := convertCoreF l.length b l

/-- convertNumberedListsToBullets: the whole-document replace; position zero
is a line start. -/
def convertNumberedListsToBullets (md : List Char) : List Char := convertCore true md

/-- Whether the numbered-list pattern matches anywhere in the input when
scanning begins in the given line-start state. -/
def hasMatch : Bool → List Char → Bool
  | _, [] => false
  | b, c :: t => (b && (tryMatch (c :: t)).isSome) || hasMatch (isLineTerm c) t

/-! ## Whitespace and smart-quote normalization (normalizeText, line 248) -/

/-- The nonBreakingSpaceMap of the source: three space-family characters map
to an ordinary space, the two zero-width characters map to the empty
string. -/
def nonBreakingSpaceMap (c : Char) : List Char :=
  if c == ' ' then [' ']
  else if c == ' ' then [' ']
  else if c == ' ' then [' ']
  else if c == '⁠' then []
  else if c == '﻿' then []
  else [c]

/-- The smartQuoteMap of the source: curly quotes and dashes to ASCII. -/
def smartQuoteMap (c : Char) : Char :=
  if c == '“' then '"'
  else if c == '”' then '"'
  else if c == '‘' then '\''
  else if c == '’' then '\''
  else if c == '–' then '-'
  else if c == '—' then '-'
  else c

/-- normalizeText: the non-breaking-space pass followed by the smart-quote
pass, each a single global substitution. -/
def normalizeText (md : List Char) : List Char :=
  (md.flatMap nonBreakingSpaceMap).map smartQuoteMap

/-- The composed Text Normalizer of the pipeline, as applied by convert:
numbered-to-bullet conversion, then whitespace normalization, then
smart-quote ASCII-fication. -/
def textNormalizer (md : List Char) : List Char :=
  normalizeText (convertNumberedListsToBullets md)

/-! ## Markdown renderer adapter (getTurndownService, main.ts lines 185 to 204)

A TurndownService instance is modelled by the option object it was
constructed with and the GFM-plugin flag set by service.use.  The module
variable turndownServiceInstance is threaded explicitly as state. -/

/-- A constructed TurndownService: constructor options plus the gfm plugin
registration performed right after construction. -/
structure TDService where
  opts : List (String × String)
  gfm : Bool
deriving DecidableEq

/-- The fixed defaultTurndownOptions of the source. -/
def defaultTurndownOptions : List (String × String) :=
  [("headingStyle", "atx"), ("codeBlockStyle", "fenced"), ("bulletListMarker", "-")]

/-- JS object spread of two option objects: every key of the second object
takes its value from the second object, keys only in the first keep their
value.  This models the object literal spreading a before b. -/
def objSpread2 (a b : List (String × String)) : List (String × String) :=
  a.map (fun kv => (kv.1, (b.lookup kv.1).getD kv.2)) ++
    b.filter (fun kv => (a.lookup kv.1).isNone)

/-- Construct a service and register the gfm plugin on it. -/
def mkService (o : List (String × String)) : TDService := TDService.mk o true

/-- getTurndownService: with a non-empty options object, construct and return
a one-shot instance from the spread of the options under the defaults,
leaving the module singleton untouched; with empty options, return the
singleton, creating it from the defaults first if absent. -/
def getTurndownService (options : List (String × String)) (inst : Option TDService) :
    TDService × Option TDService :=
  if options.length > 0 then
    (mkService (objSpread2 options defaultTurndownOptions), inst)
  else
    match inst with
    | some s => (s, some s)
    | none => (mkService defaultTurndownOptions, some (mkService defaultTurndownOptions))

/-- The unique value ever stored in the singleton variable. -/
def defaultService : TDService := mkService defaultTurndownOptions

/-- State evolution of the singleton across a sequence of conversions, each
with its options object. -/
def runCalls : List (List (String × String)) → Option TDService → Option TDService
  | [], st => st
  | o :: rest, st => runCalls rest (getTurndownService o st).2

/-! ## DOM rewriting (processHtml, main.ts lines 131 to 183)

The DOM produced by node-html-parser is modelled as a tree of element and
text nodes (attributes play no role in processHtml).  The two rewrites are
performed in document order exactly as the two forEach loops of the source:
all tables first, then all unordered-list items.  A node detached by an
earlier step is never reprocessed, which the recursive definitions reproduce
by rewriting a subtree only while it is part of the current tree. -/

mutual
/-- A DOM node: a text node or an element with a tag and children. -/
inductive HNode where
  | text : List Char → HNode
  | elem : List Char → HForest → HNode
/-- A list of sibling DOM nodes. -/
inductive HForest where
  | nil : HForest
  | cons : HNode → HForest → HForest
end
deriving instance DecidableEq for HNode, HForest

mutual
/-- Serialization of one node, as node-html-parser toString renders a tree
without attributes. -/
def nodeSer : HNode → List Char
  | .text s => s
  | .elem tag cs => '<' :: (tag ++ '>' :: forestSer cs) ++ '<' :: '/' :: (tag ++ ['>'])
/-- Serialization of a forest; for the children of an element this is its
innerHTML. -/
def forestSer : HForest → List Char
  | .nil => []
  | .cons n ns => nodeSer n ++ forestSer ns
end

mutual
/-- textContent of one node: concatenation of all text runs in the subtree. -/
def nodeText : HNode → List Char
  | .text s => s
  | .elem _ cs => forestText cs
/-- textContent of a forest. -/
def forestText : HForest → List Char
  | .nil => []
  | .cons n ns => nodeText n ++ forestText ns
end

mutual
/-- Whether the subtree rooted at the node contains an element with the given
tag (the node itself included). -/
def nodeHasTag (t : List Char) : HNode → Bool
  | .text _ => false
  | .elem tag cs => tag == t || forestHasTag t cs
/-- Whether some node of the forest contains an element with the tag. -/
def forestHasTag (t : List Char) : HForest → Bool
  | .nil => false
  | .cons n ns => nodeHasTag t n || forestHasTag t ns
end

mutual
/-- First element with the given tag in pre-order in the subtree, the node
itself included: the querySelector search order of node-html-parser. -/
def nodeFirstTag (t : List Char) : HNode → Option HNode
  | .text _ => none
  | .elem tag cs => if tag == t then some (.elem tag cs) else forestFirstTag t cs
/-- First element with the tag in pre-order in the forest. -/
def forestFirstTag (t : List Char) : HForest → Option HNode
  | .nil => none
  | .cons n ns =>
      match nodeFirstTag t n with
      | some r => some r
      | none => forestFirstTag t ns
end

mutual
/-- All elements with the given tag in pre-order in the subtree, the node
itself included: the querySelectorAll result list. -/
def nodeTags (t : List Char) : HNode → List HNode
  | .text _ => []
  | .elem tag cs => (if tag == t then [HNode.elem tag cs] else []) ++ forestTags t cs
/-- All elements with the tag in pre-order in the forest. -/
def forestTags (t : List Char) : HForest → List HNode
  | .nil => []
  | .cons n ns => nodeTags t n ++ forestTags t ns
end

/-- Remove the first pre-order element with the given tag from the forest,
together with its whole subtree; the boolean reports whether a removal
happened (firstRow.remove of the source). -/
def forestRemoveFirst (t : List Char) : HForest → HForest × Bool
  | .nil => (.nil, false)
  | .cons (.text s) ns =>
      let r := forestRemoveFirst t ns
      (.cons (.text s) r.1, r.2)
  | .cons (.elem tag cs) ns =>
      if tag == t then (ns, true)
      else
        let rc := forestRemoveFirst t cs
        if rc.2 then (.cons (.elem tag rc.1) ns, true)
        else
          let rn := forestRemoveFirst t ns
          (.cons (.elem tag cs) rn.1, rn.2)

mutual
/-- Retag every td element in the subtree (the node itself included) to th:
the effect of assigning tagName on each cell of querySelectorAll td. -/
def nodeRetagTd : HNode → HNode
  | .text s => .text s
  | .elem tag cs => .elem (if tag == "td".data then "th".data else tag) (forestRetagTd cs)
/-- Retag every td element of a forest to th. -/
def forestRetagTd : HForest → HForest
  | .nil => .nil
  | .cons n ns => .cons (nodeRetagTd n) (forestRetagTd ns)
end

/-- Find the first pre-order tr element of the forest and retag all td
elements below it to th; the boolean reports whether a tr was found. -/
def forestRetagFirstTr : HForest → HForest × Bool
  | .nil => (.nil, false)
  | .cons (.text s) ns =>
      let r := forestRetagFirstTr ns
      (.cons (.text s) r.1, r.2)
  | .cons (.elem tag cs) ns =>
      if tag == "tr".data then (.cons (.elem tag (forestRetagTd cs)) ns, true)
      else
        let rc := forestRetagFirstTr cs
        if rc.2 then (.cons (.elem tag rc.1) ns, true)
        else
          let rn := forestRetagFirstTr ns
          (.cons (.elem tag cs) rn.1, rn.2)

/-- firstRow.querySelector th: whether a header cell exists below the row. -/
def rowHasTh (r : HNode) : Bool :=
  match r with
  | .text _ => false
  | .elem _ cs => forestHasTag "th".data cs

/-- firstRow.querySelectorAll td: the data cells below the row, pre-order. -/
def rowTds (r : HNode) : List HNode :=
  match r with
  | .text _ => []
  | .elem _ cs => forestTags "td".data cs

/-- JS String.trim over the model: strip the JS whitespace class from both
ends. -/
def jsTrim (l : List Char) : List Char :=
  ((l.dropWhile isJsWs).reverse.dropWhile isJsWs).reverse

/-- The per-table body of the forEach over querySelectorAll table, acting on
the children of one table element: find the first row; leave the table alone
if it already has a th below that row; otherwise either retag the data cells
of the first row, or, when the first row is empty (no data cells, or all
trimmed cell texts empty), remove it and retag the data cells of the next
row if one exists. -/
def tableFix (cs : HForest) : HForest :=
  match forestFirstTag "tr".data cs with
  | none => cs
  | some row =>
      if rowHasTh row then cs
      else
        let cells := rowTds row
        if cells.isEmpty || cells.all (fun c => (jsTrim (nodeText c)).isEmpty) then
          let cs2 := (forestRemoveFirst "tr".data cs).1
          match forestFirstTag "tr".data cs2 with
          | none => cs2
          | some _ => (forestRetagFirstTr cs2).1
        else (forestRetagFirstTr cs).1

mutual
/-- Size of a node, used as fuel for the table phase. -/
def nodeSize : HNode → Nat
  | .text _ => 1
  | .elem _ cs => 1 + forestSize cs
/-- Size of a forest. -/
def forestSize : HForest → Nat
  | .nil => 0
  | .cons n ns => nodeSize n + forestSize ns
end

mutual
/-- The table pass over one node, in document order with explicit fuel (the
wrapper tablePhase supplies sufficient fuel): an outer table is fixed before
its descendants are visited, and a row removed by the fix disappears without
its nested tables being processed, exactly as detached nodes of the static
querySelectorAll list are mutated without effect. -/
def tpNodeF : Nat → HNode → HNode
  | 0, n => n
  | _ + 1, .text s => .text s
  | f + 1, .elem tag cs =>
      if tag == "table".data then .elem tag (tpForestF f (tableFix cs))
      else .elem tag (tpForestF f cs)
/-- The table pass over a forest, with fuel. -/
def tpForestF : Nat → HForest → HForest
  | 0, ns => ns
  | _ + 1, .nil => .nil
  | f + 1, .cons n ns => .cons (tpNodeF f n) (tpForestF f ns)
end

/-- The complete table-header pass of processHtml. -/
def tablePhase (ns : HForest) : HForest := tpForestF (2 * forestSize ns + 1) ns

/-- The unicodeBullets list of the source. -/
def unicodeBullets : List Char :=
  ['•', '◦', '▪', '▫', '‣', '⁃', '∙', '·']

/-- Membership in the bullet character class of bulletRegex. -/
def isBullet (c : Char) : Bool := unicodeBullets.contains c

/-- Length of the anchored bulletRegex match on an innerHTML string:
optional whitespace, exactly one bullet character, optional whitespace;
none when no leading bullet is present. -/
def bulletMatchLen (l : List Char) : Option Nat :=
  let ws := l.takeWhile isJsWs
  match l.dropWhile isJsWs with
  | b :: rest =>
      if isBullet b then some (ws.length + 1 + (rest.takeWhile isJsWs).length)
      else none
  | [] => none

/-- Drop the first k serialized characters from a forest.  The bulletRegex
match lies entirely within the leading text nodes (a serialized element
starts with an angle bracket, which is neither whitespace nor a bullet), so
assigning the stripped innerHTML re-parses to exactly this forest. -/
def forestDropChars : HForest → Nat → HForest
  | ns, 0 => ns
  | .nil, _ => .nil
  | .cons (.text s) ns, k =>
      if k < s.length then .cons (.text (s.drop k)) ns
      else forestDropChars ns (k - s.length)
  | .cons (.elem tag cs) ns, _ => .cons (.elem tag cs) ns

mutual
/-- The bullet pass over one node: the forEach over querySelectorAll ul-li in
document order.  The flag records whether an unordered-list ancestor exists,
which is what the descendant selector ul-li tests.  When the anchored bullet
match succeeds on the innerHTML of a matched list item, the stripped
innerHTML is assigned (its re-parsed nodes, being fresh, are not visited
further); otherwise the children are visited. -/
def spNode (underUl : Bool) : HNode → HNode
  | .text s => .text s
  | .elem tag cs =>
      if tag == "li".data && underUl then
        match bulletMatchLen (forestSer cs) with
        | some k => .elem tag (forestDropChars cs k)
        | none => .elem tag (spForest underUl cs)
      else .elem tag (spForest (underUl || tag == "ul".data) cs)
/-- The bullet pass over a forest. -/
def spForest (underUl : Bool) : HForest → HForest
  | .nil => .nil
  | .cons n ns => .cons (spNode underUl n) (spForest underUl ns)
end

/-- processHtml on a parsed tree: the table pass, then the bullet pass, on
the same tree, then serialization happens at toString. -/
def processHtml (ns : HForest) : HForest := spForest false (tablePhase ns)

/-- processHtml followed by toString: the string the function returns. -/
def processHtmlSer (ns : HForest) : List Char := forestSer (processHtml ns)

/-! ## Derived definitions for the text-normalizer analysis -/

/-- The final stage of the anchored numbered-list match, split out as a
function of the digit run, the leading-whitespace run and the remainder of
the input after the digits. -/
def dotMatch (ds ws S : List Char) : Option (List Char × Char × List Char) :=
  match S with
  | '.' :: w :: rest => if ds ≠ [] ∧ isJsWs w then some (ws, w, rest) else none
  | _ => none

/-- The character-level action of the non-breaking-space substitution on
characters other than the two zero-width characters: the three space-family
characters become an ordinary space. -/
def nbsp1 (c : Char) : Char :=
  if c == ' ' then ' '
  else if c == ' ' then ' '
  else if c == ' ' then ' '
  else c

/-- The combined character action of normalizeText away from the zero-width
characters: space-family folding followed by the smart-quote map. -/
def gChar (c : Char) : Char := smartQuoteMap (nbsp1 c)

/-- The five characters matched by the non-breaking-space pattern of
normalizeText (U+00A0, U+2007, U+202F, U+2060, U+FEFF). -/
def famList : List Char := [' ', ' ', ' ', '⁠', '﻿']

/-- The six characters matched by the smart-quote pattern of normalizeText. -/
def smartList : List Char := ['“', '”', '‘', '’', '–', '—']

/-! ## General list helpers -/

theorem takeWhile_append_of_all {p : Char → Bool} :
    ∀ {xs : List Char} (ys : List Char), (∀ c ∈ xs, p c = true) →
      (xs ++ ys).takeWhile p = xs ++ ys.takeWhile p := by
  intro xs
  induction xs with
  | nil => intro ys _; rfl
  | cons a xs ih =>
      intro ys h
      have ha : p a = true := h a (List.mem_cons_self a xs)
      simp only [List.cons_append, List.takeWhile_cons, ha, if_true]
      rw [ih ys (fun c hc => h c (List.mem_cons_of_mem a hc))]

theorem dropWhile_append_of_all {p : Char → Bool} :
    ∀ {xs : List Char} (ys : List Char), (∀ c ∈ xs, p c = true) →
      (xs ++ ys).dropWhile p = ys.dropWhile p := by
  intro xs
  induction xs with
  | nil => intro ys _; rfl
  | cons a xs ih =>
      intro ys h
      have ha : p a = true := h a (List.mem_cons_self a xs)
      simp only [List.cons_append, List.dropWhile_cons, ha, if_true]
      exact ih ys (fun c hc => h c (List.mem_cons_of_mem a hc))

theorem length_dropWhile_le (p : Char → Bool) (l : List Char) :
    (l.dropWhile p).length ≤ l.length := by
  induction l with
  | nil => simp
  | cons c t ih =>
      rw [List.dropWhile_cons]
      split
      · exact Nat.le_succ_of_le ih
      · exact Nat.le_refl _

theorem mem_of_mem_takeWhile {p : Char → Bool} {l : List Char} {c : Char}
    (h : c ∈ l.takeWhile p) : c ∈ l := by
  induction l with
  | nil => simp [List.takeWhile] at h
  | cons a t ih =>
      rw [List.takeWhile_cons] at h
      by_cases hp : p a = true
      · rw [if_pos hp] at h
        rcases List.mem_cons.mp h with h1 | h1
        · exact h1 ▸ List.mem_cons_self a t
        · exact List.mem_cons_of_mem a (ih h1)
      · rw [if_neg hp] at h; cases h

theorem all_takeWhile (p : Char → Bool) (l : List Char) :
    ∀ c ∈ l.takeWhile p, p c = true := by
  induction l with
  | nil => intro c hc; simp [List.takeWhile] at hc
  | cons a t ih =>
      intro c hc
      rw [List.takeWhile_cons] at hc
      by_cases hp : p a = true
      · rw [if_pos hp] at hc
        rcases List.mem_cons.mp hc with h1 | h1
        · exact h1 ▸ hp
        · exact ih c h1
      · rw [if_neg hp] at hc; cases hc

theorem lookup_append (k : String) (l1 l2 : List (String × String)) :
    List.lookup k (l1 ++ l2) =
      (List.lookup k l1).orElse (fun _ => List.lookup k l2) := by
  induction l1 with
  | nil => simp [List.lookup]
  | cons r rest ih =>
      simp only [List.cons_append, List.lookup]
      by_cases h : k == r.1
      · simp [h]
      · simp only [Bool.not_eq_true] at h
        simp [h, ih]

/-! ## Claim C10: entity decoding re-scans across passes -/

/-- C10: decodeEntities re-scans the output of each pass on the next pass, so
a doubly encoded ampersand and a triply encoded ampersand both decode fully
to a single ampersand (the triple case using all 3 passes of the cap). -/
theorem entity_rescan_nested_amp :
    decodeHtmlEntities "&amp;amp;".data = "&".data ∧
    decodeHtmlEntities "&amp;amp;amp;".data = "&".data ∧
    decodePassCount "&amp;amp;amp;".data = 3 := by
  decide

/-! ## Claim C7: the decoding loop is bounded -/

theorem decodeCountF_le : ∀ (n : Nat) (b : Bool) (s : List Char),
    decodeCountF n b s ≤ n := by
  intro n
  induction n with
  | zero => intro b s; exact Nat.le_refl 0
  | succ n ih =>
      intro b s
      cases b with
      | false => exact Nat.zero_le _
      | true =>
          show 1 + decodeCountF n _ _ ≤ n + 1
          rw [Nat.add_comm 1 (decodeCountF n _ _)]
          exact Nat.succ_le_succ (ih _ _)

theorem decodeCountF_false : ∀ (n : Nat) (s : List Char), decodeCountF n false s = 0 := by
  intro n s; cases n <;> rfl

theorem decodeLoopF_eq_iter : ∀ (n : Nat) (b : Bool) (s : List Char),
    decodeLoopF n b s = entPassIter (decodeCountF n b s) s := by
  intro n
  induction n with
  | zero => intro b s; rfl
  | succ n ih =>
      intro b s
      cases b with
      | false => rfl
      | true =>
          show decodeLoopF n _ (entPass s) = entPassIter (1 + decodeCountF n _ (entPass s)) s
          rw [Nat.add_comm 1 _]
          show decodeLoopF n _ (entPass s) = entPassIter (decodeCountF n _ (entPass s) + 1) s
          have : ∀ (k : Nat) (x : List Char), entPassIter (k + 1) x = entPassIter k (entPass x) := by
            intro k x; rfl
          rw [this]
          exact ih _ _

theorem decodeCountF_changes : ∀ (n : Nat) (b : Bool) (s : List Char) (k : Nat),
    k + 1 < decodeCountF n b s → entPassIter (k + 1) s ≠ entPassIter k s := by
  intro n
  induction n with
  | zero => intro b s k h; exact absurd h (by simp [decodeCountF])
  | succ n ih =>
      intro b s k h
      cases b with
      | false => exact absurd h (by simp [decodeCountF])
      | true =>
          have hcount : decodeCountF (n + 1) true s =
              1 + decodeCountF n (!(entPass s == s) && (entPass s).contains '&') (entPass s) := rfl
          rw [hcount] at h
          cases k with
          | zero =>
              have hc : 1 ≤ decodeCountF n (!(entPass s == s) && (entPass s).contains '&') (entPass s) := by
                omega
              have hflag : (!(entPass s == s) && (entPass s).contains '&') = true := by
                by_contra hf
                rw [Bool.not_eq_true] at hf
                rw [hf, decodeCountF_false] at hc
                omega
              have hne : ¬ (entPass s == s) = true := by
                intro hq
                rw [Bool.and_eq_true] at hflag
                rw [hq] at hflag
                simp at hflag
              intro heq
              apply hne
              rw [beq_iff_eq]
              exact heq
          | succ k' =>
              have h2 : k' + 1 < decodeCountF n (!(entPass s == s) && (entPass s).contains '&') (entPass s) := by
                omega
              have := ih _ (entPass s) k' h2
              intro heq
              apply this
              have hshift : ∀ (m : Nat), entPassIter (m + 1) s = entPassIter m (entPass s) := by
                intro m; rfl
              rw [← hshift, ← hshift]
              exact heq

/-- C7: for every input, the decoding loop executes at most 3 passes, the
result is exactly the iterate of the single pass that many times, every pass
other than the last changed the string (the loop stops as soon as a pass
makes no further change), and an input without an ampersand gets zero passes
and is returned unchanged. -/
theorem decode_loop_bounded (l : List Char) :
    decodePassCount l ≤ 3 ∧
    decodeHtmlEntities l = entPassIter (decodePassCount l) l ∧
    (∀ k, k + 1 < decodePassCount l → entPassIter (k + 1) l ≠ entPassIter k l) ∧
    (l.contains '&' = false → decodePassCount l = 0 ∧ decodeHtmlEntities l = l) := by
  refine ⟨decodeCountF_le 3 _ l, decodeLoopF_eq_iter 3 _ l, ?_, ?_⟩
  · intro k hk
    exact decodeCountF_changes 3 _ l k hk
  · intro h
    unfold decodePassCount decodeHtmlEntities
    rw [h]
    exact ⟨rfl, rfl⟩

/-- Witness for C7 at a concrete ampersand-free input. -/
theorem decode_loop_bounded_witness :
    decodePassCount "plain text".data = 0 ∧
    decodeHtmlEntities "plain text".data = "plain text".data :=
  (decode_loop_bounded "plain text".data).2.2.2 (by decide)

/-! ## Claim C8: custom options are merged under the defaults -/

theorem lookup_cons (k : String) (r : String × String) (rest : List (String × String)) :
    List.lookup k (r :: rest) = if k == r.1 then some r.2 else List.lookup k rest := by
  cases r with
  | mk a bb =>
      cases h : k == a with
      | true => simp [List.lookup, h]
      | false => simp [List.lookup, h]

theorem lookup_filter_indep (k : String) :
    ∀ (b : List (String × String)) (p q : String × String → Bool),
      (∀ kv, kv.1 = k → p kv = q kv) →
      List.lookup k (b.filter p) = List.lookup k (b.filter q) := by
  intro b
  induction b with
  | nil => intro p q _; rfl
  | cons r rest ih =>
      intro p q h
      simp only [List.filter_cons]
      by_cases hk : r.1 = k
      · have hpq : p r = q r := h r hk
        rw [hpq]
        by_cases hq : q r = true
        · rw [if_pos hq, if_pos hq, lookup_cons, lookup_cons]
          split
          · rfl
          · exact ih p q h
        · rw [if_neg hq, if_neg hq]
          exact ih p q h
      · have hbk : (k == r.1) = false := by
          rw [beq_eq_false_iff_ne]
          intro he; exact hk he.symm
        by_cases hp : p r = true <;> by_cases hq : q r = true
        · rw [if_pos hp, if_pos hq, lookup_cons, lookup_cons, if_neg, if_neg]
          · exact ih p q h
          · rw [hbk]; exact Bool.false_ne_true
          · rw [hbk]; exact Bool.false_ne_true
        · rw [if_pos hp, if_neg hq, lookup_cons, if_neg]
          · exact ih p q h
          · rw [hbk]; exact Bool.false_ne_true
        · rw [if_neg hp, if_pos hq, lookup_cons, if_neg]
          · exact ih p q h
          · rw [hbk]; exact Bool.false_ne_true
        · rw [if_neg hp, if_neg hq]
          exact ih p q h

theorem filter_lookup_nil_true (b : List (String × String)) :
    b.filter (fun kv => (List.lookup kv.1 ([] : List (String × String))).isNone) = b := by
  induction b with
  | nil => rfl
  | cons r rest ih =>
      simp only [List.filter_cons]
      rw [if_pos]
      · rw [ih]
      · rfl

theorem lookup_objSpread2 (a b : List (String × String)) (k : String) :
    List.lookup k (objSpread2 a b) =
      (List.lookup k b).orElse (fun _ => List.lookup k a) := by
  induction a with
  | nil =>
      unfold objSpread2
      rw [List.map_nil, List.nil_append, filter_lookup_nil_true]
      cases List.lookup k b with
      | none => rfl
      | some w => rfl
  | cons p a' ih =>
      unfold objSpread2
      simp only [List.map_cons, List.cons_append]
      rw [lookup_cons]
      by_cases hk : (k == p.1) = true
      · rw [if_pos hk]
        rw [lookup_cons, if_pos hk]
        cases hb : List.lookup k b with
        | none =>
            have : List.lookup p.1 b = none := by
              rw [(beq_iff_eq.mp hk : k = p.1)] at hb; exact hb
            rw [this]
            rfl
        | some w =>
            have : List.lookup p.1 b = some w := by
              rw [(beq_iff_eq.mp hk : k = p.1)] at hb; exact hb
            rw [this]
            rfl
      · have hbk : (k == p.1) = false := by
          rw [Bool.not_eq_true] at hk; exact hk
        rw [if_neg (by rw [hbk]; exact Bool.false_ne_true)]
        have hfi : List.lookup k
            (b.filter (fun kv => (List.lookup kv.1 (p :: a')).isNone)) =
            List.lookup k (b.filter (fun kv => (List.lookup kv.1 a').isNone)) := by
          apply lookup_filter_indep
          intro kv hkv
          rw [lookup_cons, if_neg]
          intro he
          apply hk
          rw [beq_iff_eq] at he ⊢
          rw [hkv] at he
          exact he
        rw [lookup_append, hfi, ← lookup_append]
        have hstep : List.lookup k (p :: a') = List.lookup k a' := by
          rw [lookup_cons, if_neg (by rw [hbk]; exact Bool.false_ne_true)]
        show List.lookup k (objSpread2 a' b) = _
        rw [ih, hstep]

/-- C8: with a non-empty options object, getTurndownService returns a fresh
one-shot instance built from the spread of the options under the fixed
defaults without touching the singleton state, and on every key of the
defaults the merged configuration keeps the default value, so no supplied
option can override a default key. -/
theorem custom_options_merge_defaults_win
    (options : List (String × String)) (inst : Option TDService)
    (h : options ≠ []) :
    getTurndownService options inst =
      (mkService (objSpread2 options defaultTurndownOptions), inst) ∧
    (∀ k v, List.lookup k defaultTurndownOptions = some v →
      List.lookup k (objSpread2 options defaultTurndownOptions) = some v) := by
  constructor
  · unfold getTurndownService
    rw [if_pos]
    exact List.length_pos.mpr h
  · intro k v hk
    rw [lookup_objSpread2, hk]
    rfl

/-- Witness for C8: a supplied headingStyle setext cannot override the
default headingStyle atx. -/
theorem custom_options_merge_defaults_win_witness :
    getTurndownService [("headingStyle", "setext")] none =
      (mkService (objSpread2 [("headingStyle", "setext")] defaultTurndownOptions), none) ∧
    List.lookup "headingStyle"
      (objSpread2 [("headingStyle", "setext")] defaultTurndownOptions) = some "atx" := by
  have h := custom_options_merge_defaults_win [("headingStyle", "setext")] none (by decide)
  exact ⟨h.1, h.2 "headingStyle" "atx" (by decide)⟩

/-! ## Claim C9: the renderer singleton invariant -/

theorem getTurndownService_state_some (o : List (String × String)) (i : TDService) :
    (getTurndownService o (some i)).2 = some i := by
  unfold getTurndownService
  by_cases h : o.length > 0
  · rw [if_pos h]
  · rw [if_neg h]

theorem runCalls_some : ∀ (calls : List (List (String × String))) (i : TDService),
    runCalls calls (some i) = some i := by
  intro calls
  induction calls with
  | nil => intro i; rfl
  | cons o rest ih =>
      intro i
      show runCalls rest (getTurndownService o (some i)).2 = some i
      rw [getTurndownService_state_some]
      exact ih i

theorem runCalls_none : ∀ (calls : List (List (String × String))),
    runCalls calls none = none ∨ runCalls calls none = some defaultService := by
  intro calls
  induction calls with
  | nil => exact Or.inl rfl
  | cons o rest ih =>
      have hstep : runCalls (o :: rest) none = runCalls rest (getTurndownService o none).2 := rfl
      by_cases h : o.length > 0
      · have h2 : (getTurndownService o none).2 = none := by
          unfold getTurndownService; rw [if_pos h]
        rw [hstep, h2]
        exact ih
      · have h2 : (getTurndownService o none).2 = some (mkService defaultTurndownOptions) := by
          unfold getTurndownService; rw [if_neg h]
        rw [hstep, h2]
        right
        exact runCalls_some rest (mkService defaultTurndownOptions)

/-- C9: the renderer singleton invariant.  Once the singleton holds an
instance, every sequence of calls leaves that same instance in place;
starting from the empty state, the singleton is either still absent or holds
the lazily created default-configured instance (it is created at most once
and only with the default configuration); a default-options call on a
populated singleton returns exactly the stored instance without replacing
it; and a call with non-empty options neither reads the singleton (its
result is a function of the options alone) nor writes it (the state is
returned unchanged). -/
theorem renderer_singleton_invariant
    (calls : List (List (String × String))) (i : TDService)
    (opts : List (String × String)) (st : Option TDService) :
    runCalls calls (some i) = some i ∧
    (runCalls calls none = none ∨ runCalls calls none = some defaultService) ∧
    getTurndownService [] (some i) = (i, some i) ∧
    (opts ≠ [] → getTurndownService opts st =
      (mkService (objSpread2 opts defaultTurndownOptions), st)) := by
  refine ⟨runCalls_some calls i, runCalls_none calls, rfl, ?_⟩
  intro h
  unfold getTurndownService
  rw [if_pos (List.length_pos.mpr h)]

/-- Witness for C9 at a concrete call sequence and concrete custom options. -/
theorem renderer_singleton_invariant_witness :
    runCalls [[("x", "y")], []] (some defaultService) = some defaultService ∧
    getTurndownService [("x", "y")] (some defaultService) =
      (mkService (objSpread2 [("x", "y")] defaultTurndownOptions), some defaultService) :=
  ⟨(renderer_singleton_invariant [[("x", "y")], []] defaultService [] none).1,
   (renderer_singleton_invariant [] defaultService [("x", "y")]
      (some defaultService)).2.2.2 (by decide)⟩

/-! ## Claim C1: rejection of doc inputs -/

theorem toNat_ofNat_valid (n : Nat) (h : n.isValidChar) : (Char.ofNat n).toNat = n := by
  rw [Char.ofNat, dif_pos h]
  simp [Char.ofNatAux, Char.toNat, UInt32.toNat]

theorem toLower_toNat (c : Char) :
    (Char.toLower c).toNat = if 65 ≤ c.toNat ∧ c.toNat ≤ 90 then c.toNat + 32 else c.toNat := by
  simp only [Char.toLower, ge_iff_le]
  split
  · rename_i hr
    exact toNat_ofNat_valid _ (Or.inl (by omega))
  · rfl

theorem charToNat_inj {c d : Char} (h : c.toNat = d.toNat) : c = d :=
  Char.ext (UInt32.toNat.inj h)

theorem toLower_eq_of_nonletter {c d : Char}
    (hd1 : d.toNat < 97 ∨ 122 < d.toNat) (hd2 : ¬ (65 ≤ d.toNat ∧ d.toNat ≤ 90))
    (h : Char.toLower c = d) : c = d := by
  have h2 := congrArg Char.toNat h
  rw [toLower_toNat] at h2
  split at h2
  · omega
  · exact charToNat_inj h2

theorem dropWhile_head_false {p : Char → Bool} : ∀ (l : List Char), l.dropWhile p ≠ [] →
    ∃ c r, l.dropWhile p = c :: r ∧ p c = false := by
  intro l
  induction l with
  | nil => intro h; exact absurd rfl h
  | cons a t ih =>
      intro h
      rw [List.dropWhile_cons]
      rw [List.dropWhile_cons] at h
      by_cases hp : p a = true
      · rw [if_pos hp] at h ⊢; exact ih h
      · rw [if_neg hp] at h ⊢
        exact ⟨a, t, rfl, (Bool.not_eq_true _).mp hp⟩

theorem extnameOfBase_doc_iff (bn : List Char) :
    (extnameOfBase bn).map Char.toLower = ".doc".data ↔
      (List.isSuffixOf ".doc".data (bn.map Char.toLower) = true ∧ 5 ≤ bn.length) := by
  constructor
  · intro h
    unfold extnameOfBase at h
    split at h
    · simp at h
    · split at h
      · simp at h
      · split at h
        · simp at h
        · rename_i hc1 hc2 hc3
          rw [List.map_cons] at h
          have hdot : Char.toLower '.' = '.' := by decide
          rw [hdot] at h
          have h9 : '.' :: ((bn.reverse.takeWhile (fun c => c != '.')).reverse).map Char.toLower
              = '.' :: 'd' :: 'o' :: 'c' :: [] := h
          have htl : ((bn.reverse.takeWhile (fun c => c != '.')).reverse).map Char.toLower
              = ['d', 'o', 'c'] := by
            injection h9
          have hlen3 : (bn.reverse.takeWhile (fun c => c != '.')).length = 3 := by
            have h4 := congrArg List.length htl
            simpa using h4
          have hdw : bn.reverse.dropWhile (fun c => c != '.') ≠ [] := by
            intro h0
            apply hc1
            have h5 := List.takeWhile_append_dropWhile (fun c => c != '.') bn.reverse
            rw [h0, List.append_nil] at h5
            exact congrArg List.length h5
          obtain ⟨c, r, hcr, hpc⟩ := dropWhile_head_false bn.reverse hdw
          have hc : c = '.' := by simpa using hpc
          subst hc
          have hsplit : bn.reverse = bn.reverse.takeWhile (fun c => c != '.') ++ '.' :: r := by
            conv_lhs => rw [← List.takeWhile_append_dropWhile (fun c => c != '.') bn.reverse]
            rw [hcr]
          have hbn : bn = r.reverse ++ '.' :: (bn.reverse.takeWhile (fun c => c != '.')).reverse := by
            conv_lhs => rw [← List.reverse_reverse bn, hsplit]
            rw [List.reverse_append, List.reverse_cons, List.append_assoc]
            rfl
          constructor
          · rw [List.isSuffixOf_iff_suffix]
            refine ⟨r.reverse.map Char.toLower, ?_⟩
            rw [hbn, List.map_append, List.map_cons, hdot, htl]
          · have h7 := congrArg List.length hsplit
            simp only [List.length_append, List.length_cons] at h7
            have h8 : bn.reverse.length = bn.length := List.length_reverse bn
            rw [hlen3] at h7 hc2
            omega
  · rintro ⟨hsuf, hlen⟩
    obtain ⟨t, ht⟩ := List.isSuffixOf_iff_suffix.mp hsuf
    have hmap : bn.reverse.map Char.toLower = 'c' :: 'o' :: 'd' :: '.' :: t.reverse := by
      rw [List.map_reverse, ← ht, List.reverse_append]
      rfl
    cases hrb : bn.reverse with
    | nil => rw [hrb] at hmap; simp at hmap
    | cons c0 rb1 =>
        rw [hrb, List.map_cons] at hmap
        injection hmap with h0 hmap
        cases rb1 with
        | nil => simp at hmap
        | cons c1 rb2 =>
            rw [List.map_cons] at hmap
            injection hmap with h1 hmap
            cases rb2 with
            | nil => simp at hmap
            | cons c2 rb3 =>
                rw [List.map_cons] at hmap
                injection hmap with h2 hmap
                cases rb3 with
                | nil => simp at hmap
                | cons c3 rb4 =>
                    rw [List.map_cons] at hmap
                    injection hmap with h3 hmap
                    have hC3 : c3 = '.' := toLower_eq_of_nonletter (by decide) (by decide) h3
                    subst hC3
                    have hne0 : (c0 != '.') = true := by
                      rw [bne_iff_ne]
                      intro he; rw [he] at h0; exact absurd h0 (by decide)
                    have hne1 : (c1 != '.') = true := by
                      rw [bne_iff_ne]
                      intro he; rw [he] at h1; exact absurd h1 (by decide)
                    have hne2 : (c2 != '.') = true := by
                      rw [bne_iff_ne]
                      intro he; rw [he] at h2; exact absurd h2 (by decide)
                    have had : (bn.reverse.takeWhile (fun c => c != '.')) = [c0, c1, c2] := by
                      rw [hrb]
                      rw [List.takeWhile_cons, if_pos hne0, List.takeWhile_cons, if_pos hne1,
                          List.takeWhile_cons, if_pos hne2, List.takeWhile_cons, if_neg (by decide)]
                    have hrblen : bn.reverse.length = bn.length := List.length_reverse bn
                    unfold extnameOfBase
                    rw [if_neg, if_neg, if_neg]
                    · rw [had]
                      show ('.' :: [c2, c1, c0]).map Char.toLower = _
                      rw [List.map_cons, List.map_cons, List.map_cons, List.map_cons]
                      rw [h0, h1, h2]
                      rfl
                    · intro he
                      have := congrArg List.length he
                      simp at this
                      omega
                    · rw [had, hrblen]
                      simp only [List.length_cons, List.length_nil]
                      omega
                    · rw [had, hrblen]
                      simp only [List.length_cons, List.length_nil]
                      omega

/-- C1 (amended): convert raises UnsupportedFileError on a path exactly when
the last path component, lowercased, ends in dot-doc and has at least five
characters, i.e. its final dot is not the leading character of the component.
A hidden file named exactly dot-doc is therefore not rejected and goes to
extraction, because path.extname treats a leading dot as no extension. -/
theorem doc_rejection_rule (p : List Char) :
    convertPathStep p = ConvertOutcome.unsupportedFormatError ↔
      (List.isSuffixOf ".doc".data ((baseName p).map Char.toLower) = true ∧
        5 ≤ (baseName p).length) := by
  have h1 : convertPathStep p = ConvertOutcome.unsupportedFormatError ↔
      validateFileExtension p = true := by
    unfold convertPathStep
    by_cases h : validateFileExtension p = true
    · rw [if_pos h]
      exact ⟨fun _ => h, fun _ => rfl⟩
    · rw [if_neg h]
      constructor
      · intro he; cases he
      · intro he; exact absurd he h
  rw [h1]
  have h2 : validateFileExtension p = true ↔
      (extname p).map Char.toLower = ".doc".data := by
    unfold validateFileExtension
    exact beq_iff_eq
  rw [h2]
  exact extnameOfBase_doc_iff (baseName p)

/-- C1 counterexample: the path consisting of the single component dot-doc
has a lowercased form ending in dot-doc, so the claim requires the
UnsupportedFormat error, yet convert proceeds to extraction. -/
theorem doc_rejection_counterexample :
    convertPathStep ".doc".data = ConvertOutcome.extractionAttempted ∧
    List.isSuffixOf ".doc".data ((".doc".data).map Char.toLower) = true := by
  decide

/-! ## Claim C5: numeric and hexadecimal character references -/


theorem digit_entChar {c : Char} (h : isAsciiDigit c = true) : entChar c = true := by
  simp [entChar, isWordChar, h]

theorem hexdigit_entChar {c : Char} (h : isHexDigit c = true) : entChar c = true := by
  unfold isHexDigit at h
  unfold entChar isWordChar
  rcases Bool.or_eq_true_iff.mp h with h1 | h2
  · rcases Bool.or_eq_true_iff.mp h1 with h3 | h3
    · simp [h3]
    · rw [Bool.and_eq_true_iff] at h3
      have hz : decide (c ≤ 'z') = true := by
        rw [decide_eq_true_iff]
        exact Char.le_trans (of_decide_eq_true h3.2) (by decide)
      simp [h3.1, hz]
  · rw [Bool.and_eq_true_iff] at h2
    have hz : decide (c ≤ 'Z') = true := by
      rw [decide_eq_true_iff]
      exact Char.le_trans (of_decide_eq_true h2.2) (by decide)
    simp [h2.1, hz]

theorem entPassF_nil (f : Nat) : entPassF f [] = [] := by
  cases f <;> rfl

theorem entPass_cons_amp (t : List Char) :
    entPass ('&' :: t) =
      (match t.dropWhile entChar with
       | ';' :: r =>
           if t.takeWhile entChar ≠ [] then
             decodeEntity ('&' :: t.takeWhile entChar ++ [';']) ++ entPassF t.length r
           else '&' :: entPassF t.length t
       | _ => '&' :: entPassF t.length t) := by
  unfold entPass
  rw [List.length_cons]
  rfl

theorem entPass_token (body : List Char)
    (hb : body ≠ []) (hall : ∀ c ∈ body, entChar c = true) :
    entPass ('&' :: body ++ [';']) = decodeEntity ('&' :: body ++ [';']) := by
  rw [List.cons_append, entPass_cons_amp]
  have hdrop : (body ++ [';']).dropWhile entChar = [';'] := by
    rw [dropWhile_append_of_all _ hall]
    rfl
  have htake : (body ++ [';']).takeWhile entChar = body := by
    rw [takeWhile_append_of_all _ hall]
    rw [show List.takeWhile entChar [';'] = [] from rfl, List.append_nil]
  rw [hdrop]
  show (if (body ++ [';']).takeWhile entChar ≠ [] then
      decodeEntity ('&' :: (body ++ [';']).takeWhile entChar ++ [';']) ++
        entPassF (body ++ [';']).length [] else
      '&' :: entPassF (body ++ [';']).length (body ++ [';'])) =
    decodeEntity ('&' :: body ++ [';'])
  rw [htake, if_pos hb, entPassF_nil, List.append_nil]

theorem lookupEntity_numeric (ds : List Char)
    (hall : ∀ c ∈ ds, isAsciiDigit c = true) (hne : ds ≠ ['3', '9']) :
    lookupEntity namedEntities ('&' :: '#' :: ds ++ [';']) = none := by
  simp only [namedEntities, lookupEntity]
  rw [if_neg, if_neg, if_neg, if_neg, if_neg, if_neg, if_neg, if_neg,
      if_neg, if_neg, if_neg, if_neg, if_neg, if_neg, if_neg, if_neg]
  all_goals intro hk
  all_goals injection hk with h1 h2
  all_goals try (injection h2 with h3 h4; exact absurd h3 (by decide))
  · injection h2 with h3 h4
    cases ds with
    | nil =>
        injection h4 with h5 h6
        exact absurd h5 (by decide)
    | cons d ds1 =>
        injection h4 with h5 h6
        have hd := hall d (List.mem_cons_self d ds1)
        rw [h5] at hd
        exact absurd hd (by decide)
  · injection h2 with h3 h4
    apply hne
    cases ds with
    | nil =>
        injection h4 with h5 h6
        exact absurd h5 (by decide)
    | cons d ds1 =>
        injection h4 with h5 h6
        cases ds1 with
        | nil =>
            injection h6 with h7 h8
            exact absurd h7 (by decide)
        | cons e ds2 =>
            injection h6 with h7 h8
            cases ds2 with
            | nil => rw [h5, h7]
            | cons f ds3 =>
                injection h8 with h9 h10
                exact absurd (congrArg List.length h10) (by simp)

theorem lookupEntity_hex (x : Char) (hs : List Char) (hx : x = 'x' ∨ x = 'X')
    (hne : ¬ (x = 'x' ∧ hs = ['2', '7'])) :
    lookupEntity namedEntities ('&' :: '#' :: x :: hs ++ [';']) = none := by
  simp only [namedEntities, lookupEntity]
  rw [if_neg, if_neg, if_neg, if_neg, if_neg, if_neg, if_neg, if_neg,
      if_neg, if_neg, if_neg, if_neg, if_neg, if_neg, if_neg, if_neg]
  all_goals intro hk
  all_goals injection hk with h1 h2
  all_goals try (injection h2 with h3 h4; exact absurd h3 (by decide))
  · injection h2 with h3 h4
    injection h4 with h5 h6
    cases hs with
    | nil =>
        injection h6 with h7 h8
        exact absurd h7 (by decide)
    | cons d hs1 =>
        injection h6 with h7 h8
        cases hs1 with
        | nil =>
            injection h8 with h9 h10
            exact absurd h9 (by decide)
        | cons e hs2 =>
            injection h8 with h9 h10
            cases hs2 with
            | nil => exact hne ⟨h5, by rw [h7, h9]⟩
            | cons f hs3 =>
                injection h10 with h11 h12
                exact absurd (congrArg List.length h12) (by simp)
  · injection h2 with h3 h4
    injection h4 with h5 h6
    rcases hx with hx | hx <;> rw [hx] at h5 <;> exact absurd h5 (by decide)

theorem numBody_eq (rest : List Char) :
    numBody ('&' :: '#' :: rest) =
      (match rest.dropWhile isAsciiDigit with
       | [';'] =>
           if rest.takeWhile isAsciiDigit ≠ [] then some (rest.takeWhile isAsciiDigit)
           else none
       | _ => none) := rfl

theorem hexBody_eq (x : Char) (rest : List Char) :
    hexBody ('&' :: '#' :: x :: rest) =
      (if (x == 'x' || x == 'X') then
        (match rest.dropWhile isHexDigit with
         | [';'] =>
             if rest.takeWhile isHexDigit ≠ [] then some (rest.takeWhile isHexDigit)
             else none
         | _ => none)
       else none) := rfl

theorem numBody_digits (ds : List Char) (hds : ds ≠ [])
    (hall : ∀ c ∈ ds, isAsciiDigit c = true) :
    numBody ('&' :: '#' :: ds ++ [';']) = some ds := by
  have hdrop : (ds ++ [';']).dropWhile isAsciiDigit = [';'] := by
    rw [dropWhile_append_of_all _ hall]
    rfl
  have htake : (ds ++ [';']).takeWhile isAsciiDigit = ds := by
    rw [takeWhile_append_of_all _ hall]
    rw [show List.takeWhile isAsciiDigit [';'] = [] from rfl, List.append_nil]
  show numBody ('&' :: '#' :: (ds ++ [';'])) = some ds
  rw [numBody_eq, hdrop]
  show (if (ds ++ [';']).takeWhile isAsciiDigit ≠ [] then
      some ((ds ++ [';']).takeWhile isAsciiDigit) else none) = some ds
  rw [htake, if_pos hds]

theorem hexBody_digits (x : Char) (hs : List Char) (hx : x = 'x' ∨ x = 'X')
    (hhs : hs ≠ []) (hall : ∀ c ∈ hs, isHexDigit c = true) :
    hexBody ('&' :: '#' :: x :: hs ++ [';']) = some hs := by
  have hdrop : (hs ++ [';']).dropWhile isHexDigit = [';'] := by
    rw [dropWhile_append_of_all _ hall]
    rfl
  have htake : (hs ++ [';']).takeWhile isHexDigit = hs := by
    rw [takeWhile_append_of_all _ hall]
    rw [show List.takeWhile isHexDigit [';'] = [] from rfl, List.append_nil]
  show hexBody ('&' :: '#' :: x :: (hs ++ [';'])) = some hs
  rw [hexBody_eq]
  rw [if_pos (by rcases hx with hx | hx <;> rw [hx] <;> decide)]
  rw [hdrop]
  show (if (hs ++ [';']).takeWhile isHexDigit ≠ [] then
      some ((hs ++ [';']).takeWhile isHexDigit) else none) = some hs
  rw [htake, if_pos hhs]

theorem numBody_hex_none (x : Char) (hs : List Char) (hx : x = 'x' ∨ x = 'X') :
    numBody ('&' :: '#' :: x :: hs ++ [';']) = none := by
  show numBody ('&' :: '#' :: (x :: (hs ++ [';']))) = none
  rw [numBody_eq]
  have hnd : isAsciiDigit x = false := by
    rcases hx with hx | hx <;> rw [hx] <;> decide
  rw [List.dropWhile_cons, if_neg (by rw [hnd]; exact Bool.false_ne_true)]
  rcases hx with hx | hx <;> rw [hx] <;> rfl

theorem decodeEntity_eq_num (tok ds : List Char)
    (hl : lookupEntity namedEntities tok = none) (hn : numBody tok = some ds) :
    decodeEntity tok = [fromCharCode (decDigitsVal ds)] := by
  unfold decodeEntity
  rw [hl, hn]

theorem decodeEntity_eq_hex (tok hs : List Char)
    (hl : lookupEntity namedEntities tok = none) (hn : numBody tok = none)
    (hh : hexBody tok = some hs) :
    decodeEntity tok = [fromCharCode (hexDigitsVal hs)] := by
  unfold decodeEntity
  rw [hl, hn, hh]

theorem fromCharCode_eq_ofNat (n : Nat) (h1 : n < 65536) (h2 : n.isValidChar) :
    fromCharCode n = Char.ofNat n := by
  unfold fromCharCode
  simp only [Nat.mod_eq_of_lt h1]
  rw [dif_pos h2, Char.ofNat, dif_pos h2]

theorem decodeHtmlEntities_single (s : List Char) (ch : Char)
    (hc : s.contains '&' = true) (hp : entPass s = [ch]) (hlen : 2 ≤ s.length) :
    decodeHtmlEntities s = [ch] := by
  unfold decodeHtmlEntities
  rw [hc]
  show decodeLoopF 2 (!(entPass s == s) && (entPass s).contains '&') (entPass s) = [ch]
  rw [hp]
  have hne : (([ch] : List Char) == s) = false := by
    rw [beq_eq_false_iff_ne]
    intro he
    rw [← he] at hlen
    simp at hlen
  rw [hne]
  show decodeLoopF 2 (true && ([ch] : List Char).contains '&') [ch] = [ch]
  by_cases hch : ch = '&'
  · subst hch
    show decodeLoopF 2 (true && (['&'] : List Char).contains '&') ['&'] = ['&']
    decide
  · have hcont : (([ch] : List Char).contains '&') = false := by
      show (('&' == ch) || false) = false
      rw [Bool.or_false, beq_eq_false_iff_ne]
      exact fun he => hch he.symm
    rw [hcont]
    rfl

theorem charref_decimal (ds : List Char) (h1 : ds ≠ [])
    (h2 : ∀ c ∈ ds, isAsciiDigit c = true) (h3 : decDigitsVal ds < 65536)
    (h4 : (decDigitsVal ds).isValidChar) :
    decodeHtmlEntities ('&' :: '#' :: ds ++ [';']) = [Char.ofNat (decDigitsVal ds)] := by
  by_cases h39 : ds = ['3', '9']
  · subst h39
    decide
  · have hallent : ∀ c ∈ '#' :: ds, entChar c = true := by
      intro c hc
      rcases List.mem_cons.mp hc with rfl | hmem
      · decide
      · exact digit_entChar (h2 c hmem)
    have htok : entPass ('&' :: '#' :: ds ++ [';']) =
        [fromCharCode (decDigitsVal ds)] := by
      rw [entPass_token ('#' :: ds) (by simp) hallent]
      exact decodeEntity_eq_num _ ds (lookupEntity_numeric ds h2 h39) (numBody_digits ds h1 h2)
    have hfin := decodeHtmlEntities_single ('&' :: '#' :: ds ++ [';'])
      (fromCharCode (decDigitsVal ds)) (by rfl) htok (by simp)
    rw [hfin, fromCharCode_eq_ofNat _ h3 h4]

theorem charref_hex (x : Char) (hs : List Char) (hx : x = 'x' ∨ x = 'X')
    (h1 : hs ≠ []) (h2 : ∀ c ∈ hs, isHexDigit c = true)
    (h3 : hexDigitsVal hs < 65536) (h4 : (hexDigitsVal hs).isValidChar) :
    decodeHtmlEntities ('&' :: '#' :: x :: hs ++ [';']) = [Char.ofNat (hexDigitsVal hs)] := by
  by_cases h27 : x = 'x' ∧ hs = ['2', '7']
  · rcases h27 with ⟨hxx, hhs⟩
    subst hxx; subst hhs
    decide
  · have hallent : ∀ c ∈ '#' :: x :: hs, entChar c = true := by
      intro c hc
      rcases List.mem_cons.mp hc with rfl | hmem
      · decide
      · rcases List.mem_cons.mp hmem with rfl | hmem2
        · rcases hx with hx | hx <;> rw [hx] <;> decide
        · exact hexdigit_entChar (h2 c hmem2)
    have htok : entPass ('&' :: '#' :: x :: hs ++ [';']) =
        [fromCharCode (hexDigitsVal hs)] := by
      rw [entPass_token ('#' :: x :: hs) (by simp) hallent]
      exact decodeEntity_eq_hex _ hs (lookupEntity_hex x hs hx h27)
        (numBody_hex_none x hs hx) (hexBody_digits x hs hx h1 h2)
    have hfin := decodeHtmlEntities_single ('&' :: '#' :: x :: hs ++ [';'])
      (fromCharCode (hexDigitsVal hs)) (by rfl) htok (by simp)
    rw [hfin, fromCharCode_eq_ofNat _ h3 h4]

/-- C5 (amended): a decimal character reference whose value is below 65536
and a valid scalar decodes to exactly the character with that codepoint, and
likewise a hexadecimal reference (with lowercase or uppercase x marker).  The
source decodes through String.fromCharCode, which truncates the value modulo
2 to the 16, so supplementary-plane references (codepoint 65536 and above)
are mangled rather than decoded to the referenced character. -/
theorem charref_decoding :
    (∀ ds : List Char, ds ≠ [] → (∀ c ∈ ds, isAsciiDigit c = true) →
      decDigitsVal ds < 65536 → (decDigitsVal ds).isValidChar →
      decodeHtmlEntities ('&' :: '#' :: ds ++ [';']) = [Char.ofNat (decDigitsVal ds)]) ∧
    (∀ (x : Char) (hs : List Char), (x = 'x' ∨ x = 'X') → hs ≠ [] →
      (∀ c ∈ hs, isHexDigit c = true) →
      hexDigitsVal hs < 65536 → (hexDigitsVal hs).isValidChar →
      decodeHtmlEntities ('&' :: '#' :: x :: hs ++ [';']) = [Char.ofNat (hexDigitsVal hs)]) :=
  ⟨fun ds h1 h2 h3 h4 => charref_decimal ds h1 h2 h3 h4,
   fun x hs hx h1 h2 h3 h4 => charref_hex x hs hx h1 h2 h3 h4⟩

/-- Witness for C5 at the concrete references for the copyright sign. -/
theorem charref_decoding_witness :
    decodeHtmlEntities "&#169;".data = [Char.ofNat 169] ∧
    decodeHtmlEntities "&#xA9;".data = [Char.ofNat 169] := by
  constructor
  · have h := charref_decoding.1 ['1', '6', '9'] (by decide) (by decide) (by decide)
      (by decide)
    exact h
  · have h := charref_decoding.2 'x' ['A', '9'] (Or.inl rfl) (by decide) (by decide)
      (by decide) (by decide)
    exact h

/-- C5 counterexample: the reference with decimal codepoint 128512 (a
supplementary-plane emoji) decodes to the character 62976, which is 128512
modulo 65536, not to the character with codepoint 128512 as the claim
requires for all codepoint values. -/
theorem charref_truncation_counterexample :
    decodeHtmlEntities "&#128512;".data = [Char.ofNat 62976] ∧
    Char.ofNat 62976 ≠ Char.ofNat 128512 ∧
    decodeHtmlEntities "&#128512;".data ≠ [Char.ofNat 128512] := by
  decide

/-! ## Claim C6: the numbered-list line rewrite -/


theorem tryMatch_eq (l : List Char) :
    tryMatch l =
      (match (l.dropWhile isJsWs).dropWhile isAsciiDigit with
       | '.' :: w :: rest =>
           if (l.dropWhile isJsWs).takeWhile isAsciiDigit ≠ [] ∧ isJsWs w = true then
             some (l.takeWhile isJsWs, w, rest)
           else none
       | _ => none) := rfl

theorem tryMatch_eq_some {l ws : List Char} {w : Char} {rest : List Char}
    (h : tryMatch l = some (ws, w, rest)) :
    ws = l.takeWhile isJsWs ∧ isJsWs w = true ∧
      (l.dropWhile isJsWs).takeWhile isAsciiDigit ≠ [] ∧
      l = ws ++ ((l.dropWhile isJsWs).takeWhile isAsciiDigit ++ '.' :: w :: rest) := by
  rw [tryMatch_eq] at h
  split at h
  · rename_i w' rest' heq
    split at h
    · rename_i hcond
      injection h with h2
      have h3 : l.takeWhile isJsWs = ws ∧ w' = w ∧ rest' = rest := by
        rcases Prod.mk.injEq _ _ _ _ ▸ h2 with ⟨ha, hb⟩
        have h4 := Prod.mk.injEq _ _ _ _ ▸ hb
        exact ⟨ha, h4.1, h4.2⟩
      rcases h3 with ⟨hws, hw, hrest⟩
      subst hw; subst hrest
      refine ⟨hws.symm, hcond.2, hcond.1, ?_⟩
      have hsplit1 := List.takeWhile_append_dropWhile isJsWs l
      have hsplit2 := List.takeWhile_append_dropWhile isAsciiDigit (l.dropWhile isJsWs)
      rw [heq] at hsplit2
      rw [hws.symm]
      conv_lhs => rw [← hsplit1, ← hsplit2]
    · exact absurd h (by simp)
  · exact absurd h (by simp)

theorem tryMatch_some_length {l ws : List Char} {w : Char} {rest : List Char}
    (h : tryMatch l = some (ws, w, rest)) : rest.length + 2 ≤ l.length := by
  rcases tryMatch_eq_some h with ⟨_, _, _, hdec⟩
  rw [hdec]
  simp only [List.length_append, List.length_cons]
  omega

theorem convertCoreF_nil (f : Nat) (b : Bool) : convertCoreF f b [] = [] := by
  cases f <;> rfl

theorem convertCoreF_stable : ∀ (f1 f2 : Nat) (b : Bool) (l : List Char),
    l.length ≤ f1 → l.length ≤ f2 → convertCoreF f1 b l = convertCoreF f2 b l := by
  intro f1
  induction f1 with
  | zero =>
      intro f2 b l h1 _
      have : l = [] := List.length_eq_zero.mp (Nat.le_zero.mp h1)
      subst this
      rw [convertCoreF_nil, convertCoreF_nil]
  | succ f1 ih =>
      intro f2 b l h1 h2
      cases l with
      | nil => rw [convertCoreF_nil, convertCoreF_nil]
      | cons c t =>
          rw [List.length_cons] at h1 h2
          cases f2 with
          | zero => omega
          | succ f2 =>
              show (if b then _ else _) = (if b then _ else _)
              by_cases hb : b
              · rw [if_pos hb, if_pos hb]
                cases hM : tryMatch (c :: t) with
                | none =>
                    exact congrArg (c :: ·) (ih f2 (isLineTerm c) t (by omega) (by omega))
                | some p =>
                    obtain ⟨ws, w, rest⟩ := p
                    have hlen := tryMatch_some_length hM
                    rw [List.length_cons] at hlen
                    exact congrArg (fun z => ws ++ '-' :: ' ' :: z)
                      (ih f2 (isLineTerm w) rest (by omega) (by omega))
              · rw [if_neg hb, if_neg hb]
                exact congrArg (c :: ·) (ih f2 (isLineTerm c) t (by omega) (by omega))

theorem convertCore_cons (b : Bool) (c : Char) (t : List Char) :
    convertCore b (c :: t) =
      (if b then
        (match tryMatch (c :: t) with
         | some (ws, w, rest) => ws ++ '-' :: ' ' :: convertCore (isLineTerm w) rest
         | none => c :: convertCore (isLineTerm c) t)
       else c :: convertCore (isLineTerm c) t) := by
  show convertCoreF (t.length + 1) b (c :: t) = _
  show (if b then
        (match tryMatch (c :: t) with
         | some (ws, w, rest) => ws ++ '-' :: ' ' :: convertCoreF t.length (isLineTerm w) rest
         | none => c :: convertCoreF t.length (isLineTerm c) t)
       else c :: convertCoreF t.length (isLineTerm c) t) = _
  by_cases hb : b
  · rw [if_pos hb, if_pos hb]
    cases hM : tryMatch (c :: t) with
    | none => rfl
    | some p =>
        obtain ⟨ws, w, rest⟩ := p
        have hlen := tryMatch_some_length hM
        rw [List.length_cons] at hlen
        exact congrArg (fun z => ws ++ '-' :: ' ' :: z)
          (convertCoreF_stable t.length rest.length (isLineTerm w) rest (by omega) (by omega))
  · rw [if_neg hb, if_neg hb]
    rfl

theorem convertCore_copy : ∀ (p r : List Char), (∀ c ∈ p, isLineTerm c = false) →
    convertCore false (p ++ r) = p ++ convertCore false r := by
  intro p
  induction p with
  | nil => intro r _; rfl
  | cons a p ih =>
      intro r h
      rw [List.cons_append, convertCore_cons, if_neg (by simp)]
      rw [h a (List.mem_cons_self a p)]
      rw [ih r (fun c hc => h c (List.mem_cons_of_mem a hc))]
      rfl

theorem convertCore_fix_termfree (l : List Char) (h : ∀ c ∈ l, isLineTerm c = false) :
    convertCore false l = l := by
  have h2 := convertCore_copy l [] h
  rw [List.append_nil, show convertCore false ([] : List Char) = [] from rfl,
      List.append_nil] at h2
  exact h2

theorem tryMatch_nil : tryMatch ([] : List Char) = none := rfl

/-- C6 (amended): on a line (a string free of line terminators), the
numbered-to-bullet conversion rewrites a line matching the pattern optional
whitespace, digits, period, one whitespace character (the JS backslash-s
class, not only a space) to the leading whitespace followed by hyphen-space
and the text after the matched whitespace character, and leaves every
non-matching line unchanged. -/
theorem numbered_line_rewrite (l : List Char)
    (hterm : ∀ c ∈ l, isLineTerm c = false) :
    (tryMatch l = none → convertNumberedListsToBullets l = l) ∧
    (∀ ws rest (w : Char), tryMatch l = some (ws, w, rest) →
      convertNumberedListsToBullets l = ws ++ '-' :: ' ' :: rest) := by
  constructor
  · intro hnone
    cases l with
    | nil => rfl
    | cons c t =>
        unfold convertNumberedListsToBullets
        rw [convertCore_cons, if_pos rfl]
        cases hM : tryMatch (c :: t) with
        | some p => rw [hM] at hnone; cases hnone
        | none =>
            show c :: convertCore (isLineTerm c) t = c :: t
            rw [hterm c (List.mem_cons_self c t)]
            rw [convertCore_fix_termfree t
              (fun d hd => hterm d (List.mem_cons_of_mem c hd))]
  · intro ws rest w hsome
    rcases tryMatch_eq_some hsome with ⟨hws, hwws, hds, hdec⟩
    cases l with
    | nil => rw [tryMatch_nil] at hsome; cases hsome
    | cons c t =>
        unfold convertNumberedListsToBullets
        rw [convertCore_cons, if_pos rfl, hsome]
        show ws ++ '-' :: ' ' :: convertCore (isLineTerm w) rest =
          ws ++ '-' :: ' ' :: rest
        have hwmem : w ∈ (c :: t) := by
          rw [hdec]
          refine List.mem_append.mpr (Or.inr ?_)
          refine List.mem_append.mpr (Or.inr ?_)
          exact List.mem_cons_of_mem '.' (List.mem_cons_self w rest)
        rw [hterm w hwmem]
        have hrmem : ∀ d ∈ rest, isLineTerm d = false := by
          intro d hd
          apply hterm
          rw [hdec]
          refine List.mem_append.mpr (Or.inr ?_)
          refine List.mem_append.mpr (Or.inr ?_)
          exact List.mem_cons_of_mem '.' (List.mem_cons_of_mem w hd)
        rw [convertCore_fix_termfree rest hrmem]

/-- C6 counterexample: in the line for item 1 the period is followed by a
tab, not a space, so by the claim the line must be left unchanged; the code
rewrites it, because the regex accepts any whitespace character after the
period. -/
theorem numbered_line_tab_counterexample :
    convertNumberedListsToBullets "1.\tBuy milk".data = "- Buy milk".data ∧
    "- Buy milk".data ≠ "1.\tBuy milk".data := by
  decide

/-- Witness for C6 at the indented numbered line of the specification. -/
theorem numbered_line_rewrite_witness :
    convertNumberedListsToBullets "  3. Buy milk".data =
      "  ".data ++ '-' :: ' ' :: "Buy milk".data :=
  (numbered_line_rewrite "  3. Buy milk".data (by decide)).2
    "  ".data "Buy milk".data ' ' (by decide)

/-! ## The numbered-list rewrite scan and normalizer idempotence (C2) -/

theorem tryMatch_eq_dot (l : List Char) :
    tryMatch l = dotMatch ((l.dropWhile isJsWs).takeWhile isAsciiDigit)
      (l.takeWhile isJsWs) ((l.dropWhile isJsWs).dropWhile isAsciiDigit) := rfl

theorem dotMatch_none_of {S : List Char} (ds ws : List Char)
    (h : ∀ (w : Char) (rest : List Char), S ≠ '.' :: w :: rest) :
    dotMatch ds ws S = none := by
  unfold dotMatch
  split
  · rename_i w rest
    exact absurd rfl (h w rest)
  · rfl

theorem dotMatch_empty_ds (ws S : List Char) : dotMatch [] ws S = none := by
  unfold dotMatch
  split
  · rename_i w rest
    rw [if_neg]
    intro hc
    exact hc.1 rfl
  · rfl

theorem dotMatch_map_ws (a : Char) (ds ws S : List Char) :
    dotMatch ds (a :: ws) S =
      (dotMatch ds ws S).map (fun p => (a :: p.1, p.2.1, p.2.2)) := by
  conv_lhs => unfold dotMatch
  split
  · rename_i w rest
    simp only [dotMatch]
    by_cases hc : ds ≠ [] ∧ isJsWs w = true
    · rw [if_pos hc, if_pos hc]
      rfl
    · rw [if_neg hc, if_neg hc]
      rfl
  · rename_i hno
    rw [dotMatch_none_of ds ws hno]
    rfl

theorem ws_not_digit {c : Char} (h : isJsWs c = true) : isAsciiDigit c = false := by
  simp [isJsWs, jsWsChars] at h
  rcases h with rfl | rfl | rfl | rfl | rfl | rfl | rfl | rfl | rfl | rfl | rfl | rfl | rfl |
    rfl | rfl | rfl | rfl | rfl | rfl | rfl | rfl | rfl | rfl | rfl | rfl <;> decide

theorem digit_not_ws {c : Char} (h : isAsciiDigit c = true) : isJsWs c = false := by
  by_cases hw : isJsWs c = true
  · rw [ws_not_digit hw] at h; cases h
  · exact (Bool.not_eq_true _).mp hw

theorem term_is_ws {c : Char} (h : isLineTerm c = true) : isJsWs c = true := by
  unfold isLineTerm at h
  rcases Bool.or_eq_true_iff.mp h with h1 | h1
  · rcases Bool.or_eq_true_iff.mp h1 with h2 | h2
    · rcases Bool.or_eq_true_iff.mp h2 with h3 | h3
      · rw [beq_iff_eq.mp h3]; decide
      · rw [beq_iff_eq.mp h3]; decide
    · rw [beq_iff_eq.mp h2]; decide
  · rw [beq_iff_eq.mp h1]; decide

theorem tryMatch_cons_ws {a : Char} (x : List Char) (ha : isJsWs a = true) :
    tryMatch (a :: x) = (tryMatch x).map (fun p => (a :: p.1, p.2.1, p.2.2)) := by
  rw [tryMatch_eq_dot, tryMatch_eq_dot]
  rw [List.dropWhile_cons, if_pos ha, List.takeWhile_cons, if_pos ha]
  exact dotMatch_map_ws a _ _ _

theorem tryMatch_ws_other {ws : List Char} {c : Char} (x : List Char)
    (hws : ∀ d ∈ ws, isJsWs d = true)
    (h1 : isJsWs c = false) (h2 : isAsciiDigit c = false) :
    tryMatch (ws ++ c :: x) = none := by
  rw [tryMatch_eq_dot]
  rw [dropWhile_append_of_all _ hws, List.dropWhile_cons, if_neg (by rw [h1]; exact Bool.false_ne_true)]
  rw [List.takeWhile_cons, if_neg (by rw [h2]; exact Bool.false_ne_true)]
  exact dotMatch_empty_ds _ _

theorem tryMatch_cons_digit {c : Char} (t : List Char) (hc : isAsciiDigit c = true) :
    tryMatch (c :: t) =
      dotMatch (c :: t.takeWhile isAsciiDigit) [] (t.dropWhile isAsciiDigit) := by
  rw [tryMatch_eq_dot]
  have hnw : isJsWs c = false := digit_not_ws hc
  rw [List.dropWhile_cons, if_neg (by rw [hnw]; exact Bool.false_ne_true)]
  rw [show (c :: t).takeWhile isJsWs = [] from by
    rw [List.takeWhile_cons, if_neg (by rw [hnw]; exact Bool.false_ne_true)]]
  rw [List.takeWhile_cons, if_pos hc, List.dropWhile_cons, if_pos hc]

theorem term_not_digit {c : Char} (h : isLineTerm c = true) : isAsciiDigit c = false :=
  ws_not_digit (term_is_ws h)

theorem digit_not_term {c : Char} (h : isAsciiDigit c = true) : isLineTerm c = false := by
  by_cases ht : isLineTerm c = true
  · rw [term_not_digit ht] at h; cases h
  · exact (Bool.not_eq_true _).mp ht

theorem dropWhile_eq_cons_imp {p : Char → Bool} :
    ∀ {l r : List Char} {c : Char}, l.dropWhile p = c :: r → p c = false := by
  intro l
  induction l with
  | nil => intro r c h; cases h
  | cons a t ih =>
      intro r c h
      rw [List.dropWhile_cons] at h
      by_cases hp : p a = true
      · rw [if_pos hp] at h
        exact ih h
      · rw [if_neg hp] at h
        injection h with h1 _
        rw [← h1]
        exact (Bool.not_eq_true _).mp hp

theorem tryMatch_cons_other {c : Char} (x : List Char)
    (h1 : isJsWs c = false) (h2 : isAsciiDigit c = false) :
    tryMatch (c :: x) = none := by
  have h := @tryMatch_ws_other [] c x (by intro d hd; cases hd) h1 h2
  rw [List.nil_append] at h
  exact h

theorem hasMatch_nil (b : Bool) : hasMatch b [] = false := rfl

theorem hasMatch_cons (b : Bool) (c : Char) (t : List Char) :
    hasMatch b (c :: t) =
      ((b && (tryMatch (c :: t)).isSome) || hasMatch (isLineTerm c) t) := rfl

theorem hasMatch_mono {l : List Char} (b : Bool) (h : hasMatch true l = false) :
    hasMatch b l = false := by
  cases l with
  | nil => rfl
  | cons c t =>
      rw [hasMatch_cons] at h ⊢
      rcases Bool.or_eq_false_iff.mp h with ⟨h1, h2⟩
      rw [Bool.true_and] at h1
      rw [h1, h2, Bool.and_false, Bool.false_or]

theorem hasMatch_ws_dash : ∀ (ws : List Char) (b : Bool) (x : List Char),
    (∀ c ∈ ws, isJsWs c = true) →
    hasMatch b (ws ++ '-' :: ' ' :: x) = hasMatch false x := by
  intro ws
  induction ws with
  | nil =>
      intro b x _
      rw [List.nil_append, hasMatch_cons]
      rw [tryMatch_cons_other (' ' :: x) (by decide) (by decide)]
      rw [Option.isSome_none, Bool.and_false, Bool.false_or]
      rw [show isLineTerm '-' = false from by decide, hasMatch_cons]
      rw [Bool.false_and, Bool.false_or]
      rw [show isLineTerm ' ' = false from by decide]
  | cons a ws ih =>
      intro b x h
      rw [List.cons_append, hasMatch_cons]
      rw [show tryMatch (a :: (ws ++ '-' :: ' ' :: x)) = none from by
        have h9 := @tryMatch_ws_other (a :: ws) '-' (' ' :: x) h (by decide) (by decide)
        rw [List.cons_append] at h9
        exact h9]
      rw [Option.isSome_none, Bool.and_false, Bool.false_or]
      exact ih (isLineTerm a) x (fun c hc => h c (List.mem_cons_of_mem a hc))

theorem dropWhile_eq_nil_of_all {p : Char → Bool} :
    ∀ {l : List Char}, (∀ c ∈ l, p c = true) → l.dropWhile p = [] := by
  intro l
  induction l with
  | nil => intro _; rfl
  | cons a t ih =>
      intro h
      rw [List.dropWhile_cons, if_pos (h a (List.mem_cons_self a t))]
      exact ih (fun c hc => h c (List.mem_cons_of_mem a hc))

theorem convertCore_cons_false (c : Char) (t : List Char) :
    convertCore false (c :: t) = c :: convertCore (isLineTerm c) t := by
  rw [convertCore_cons]
  exact if_neg Bool.false_ne_true

theorem tryMatch_convertCore_none : ∀ (n : Nat) (l : List Char) (b : Bool),
    l.length ≤ n → tryMatch l = none → tryMatch (convertCore b l) = none := by
  intro n
  induction n with
  | zero =>
      intro l b h1 _
      have h0 : l = [] := List.length_eq_zero.mp (Nat.le_zero.mp h1)
      subst h0
      rfl
  | succ n ih =>
      intro l b h1 h2
      cases l with
      | nil => rfl
      | cons c t =>
          have hout : convertCore b (c :: t) = c :: convertCore (isLineTerm c) t := by
            rw [convertCore_cons]
            by_cases hb : b = true
            · rw [if_pos hb, h2]
            · rw [if_neg hb]
          rw [hout]
          rw [List.length_cons] at h1
          by_cases hcw : isJsWs c = true
          · rw [tryMatch_cons_ws t hcw] at h2
            rw [tryMatch_cons_ws (convertCore (isLineTerm c) t) hcw]
            have h2' : tryMatch t = none := by
              cases hM : tryMatch t with
              | none => rfl
              | some p => rw [hM] at h2; cases h2
            rw [ih t (isLineTerm c) (by omega) h2']
            rfl
          · by_cases hcd : isAsciiDigit c = true
            · have hterm : isLineTerm c = false := digit_not_term hcd
              rw [hterm]
              rw [tryMatch_cons_digit t hcd] at h2
              rw [tryMatch_cons_digit (convertCore false t) hcd]
              have hds : ∀ d ∈ t.takeWhile isAsciiDigit, isLineTerm d = false :=
                fun d hd => digit_not_term (all_takeWhile isAsciiDigit t d hd)
              have hcc : convertCore false t =
                  t.takeWhile isAsciiDigit ++ convertCore false (t.dropWhile isAsciiDigit) := by
                conv_lhs => rw [← List.takeWhile_append_dropWhile isAsciiDigit t]
                exact convertCore_copy _ _ hds
              rw [hcc]
              rw [dropWhile_append_of_all _ (all_takeWhile isAsciiDigit t)]
              cases hu : t.dropWhile isAsciiDigit with
              | nil =>
                  rw [show convertCore false ([] : List Char) = [] from rfl]
                  rfl
              | cons e u' =>
                  have he : isAsciiDigit e = false := dropWhile_eq_cons_imp hu
                  rw [convertCore_cons_false]
                  rw [List.dropWhile_cons, if_neg (by rw [he]; exact Bool.false_ne_true)]
                  by_cases hedot : e = '.'
                  · subst hedot
                    rw [hu] at h2
                    rw [show isLineTerm '.' = false from by decide]
                    cases u' with
                    | nil =>
                        rw [show convertCore false ([] : List Char) = [] from rfl]
                        rfl
                    | cons w r =>
                        have hw : isJsWs w = false := by
                          by_cases hjw : isJsWs w = true
                          · exfalso
                            simp only [dotMatch] at h2
                            rw [if_pos ⟨List.cons_ne_nil c _, hjw⟩] at h2
                            cases h2
                          · exact (Bool.not_eq_true _).mp hjw
                        rw [convertCore_cons_false]
                        simp only [dotMatch]
                        rw [if_neg]
                        intro hcond
                        rw [hw] at hcond
                        exact Bool.false_ne_true hcond.2
                  · apply dotMatch_none_of
                    intro w rest heq
                    injection heq with hh _
                    exact hedot hh
            · exact tryMatch_cons_other (convertCore (isLineTerm c) t)
                ((Bool.not_eq_true _).mp hcw) ((Bool.not_eq_true _).mp hcd)

theorem hasMatch_convertCore : ∀ (n : Nat) (l : List Char) (b : Bool),
    l.length ≤ n → hasMatch b (convertCore b l) = false := by
  intro n
  induction n with
  | zero =>
      intro l b h1
      have h0 : l = [] := List.length_eq_zero.mp (Nat.le_zero.mp h1)
      subst h0
      rfl
  | succ n ih =>
      intro l b h1
      cases l with
      | nil => rfl
      | cons c t =>
          rw [List.length_cons] at h1
          by_cases hb : b = true
          · subst hb
            cases hM : tryMatch (c :: t) with
            | none =>
                have hout : convertCore true (c :: t) =
                    c :: convertCore (isLineTerm c) t := by
                  rw [convertCore_cons, if_pos rfl, hM]
                rw [hout, hasMatch_cons]
                have hT : tryMatch (c :: convertCore (isLineTerm c) t) = none := by
                  have h5 := tryMatch_convertCore_none (n + 1) (c :: t) true
                    (by rw [List.length_cons]; omega) hM
                  rw [hout] at h5
                  exact h5
                rw [hT, Option.isSome_none, Bool.and_false, Bool.false_or]
                exact ih t (isLineTerm c) (by omega)
            | some p =>
                obtain ⟨ws, w, rest⟩ := p
                have hout : convertCore true (c :: t) =
                    ws ++ '-' :: ' ' :: convertCore (isLineTerm w) rest := by
                  rw [convertCore_cons, if_pos rfl, hM]
                rw [hout]
                rcases tryMatch_eq_some hM with ⟨hws, _, _, _⟩
                rw [hasMatch_ws_dash ws true (convertCore (isLineTerm w) rest)
                  (hws ▸ all_takeWhile isJsWs (c :: t))]
                have hlen := tryMatch_some_length hM
                rw [List.length_cons] at hlen
                by_cases hlw : isLineTerm w = true
                · rw [hlw]
                  exact hasMatch_mono false (hlw ▸ ih rest (isLineTerm w) (by omega))
                · rw [(Bool.not_eq_true _).mp hlw]
                  exact ih rest false (by omega)
          · rw [(Bool.not_eq_true _).mp hb, convertCore_cons_false, hasMatch_cons,
                Bool.false_and, Bool.false_or]
            exact ih t (isLineTerm c) (by omega)

theorem convertCore_fix_of_noMatch : ∀ (n : Nat) (l : List Char) (b : Bool),
    l.length ≤ n → hasMatch b l = false → convertCore b l = l := by
  intro n
  induction n with
  | zero =>
      intro l b h1 _
      have h0 : l = [] := List.length_eq_zero.mp (Nat.le_zero.mp h1)
      subst h0
      rfl
  | succ n ih =>
      intro l b h1 h2
      cases l with
      | nil => rfl
      | cons c t =>
          rw [List.length_cons] at h1
          rw [hasMatch_cons] at h2
          rcases Bool.or_eq_false_iff.mp h2 with ⟨h3, h4⟩
          have htail : convertCore (isLineTerm c) t = t := ih t (isLineTerm c) (by omega) h4
          by_cases hb : b = true
          · subst hb
            rw [Bool.true_and] at h3
            have hM : tryMatch (c :: t) = none := by
              cases hM : tryMatch (c :: t) with
              | none => rfl
              | some p => rw [hM] at h3; cases h3
            rw [convertCore_cons, if_pos rfl, hM, htail]
          · rw [(Bool.not_eq_true _).mp hb, convertCore_cons_false, htail]

theorem nbspMap_single {c : Char} (h1 : c ≠ '⁠') (h2 : c ≠ '﻿') :
    nonBreakingSpaceMap c = [nbsp1 c] := by
  unfold nonBreakingSpaceMap nbsp1
  split_ifs with a1 a2 a3 a4 a5
  · rfl
  · rfl
  · rfl
  · exact absurd (beq_iff_eq.mp a4) h1
  · exact absurd (beq_iff_eq.mp a5) h2
  · rfl

theorem flatMap_nbsp_eq_map {l : List Char} (h1 : '⁠' ∉ l) (h2 : '﻿' ∉ l) :
    l.flatMap nonBreakingSpaceMap = l.map nbsp1 := by
  induction l with
  | nil => rfl
  | cons c t ih =>
      rw [List.flatMap_cons, List.map_cons]
      rw [nbspMap_single (fun he => h1 (he ▸ List.mem_cons_self c t))
        (fun he => h2 (he ▸ List.mem_cons_self c t))]
      rw [ih (fun hm => h1 (List.mem_cons_of_mem c hm))
        (fun hm => h2 (List.mem_cons_of_mem c hm))]
      rfl

theorem normalizeText_eq_map {l : List Char} (h1 : '⁠' ∉ l) (h2 : '﻿' ∉ l) :
    normalizeText l = l.map gChar := by
  unfold normalizeText
  rw [flatMap_nbsp_eq_map h1 h2, List.map_map]
  rfl

theorem gChar_id {c : Char} (h : c ∉ famList ∧ c ∉ smartList) : gChar c = c := by
  rcases h with ⟨hf, hs⟩
  simp only [famList, List.mem_cons, not_or] at hf
  simp only [smartList, List.mem_cons, not_or] at hs
  obtain ⟨f1, f2, f3, f4, f5, _⟩ := hf
  obtain ⟨s1, s2, s3, s4, s5, s6, _⟩ := hs
  unfold gChar nbsp1 smartQuoteMap
  rw [if_neg (fun hh => f1 (beq_iff_eq.mp hh)),
      if_neg (fun hh => f2 (beq_iff_eq.mp hh)),
      if_neg (fun hh => f3 (beq_iff_eq.mp hh)),
      if_neg (fun hh => s1 (beq_iff_eq.mp hh)),
      if_neg (fun hh => s2 (beq_iff_eq.mp hh)),
      if_neg (fun hh => s3 (beq_iff_eq.mp hh)),
      if_neg (fun hh => s4 (beq_iff_eq.mp hh)),
      if_neg (fun hh => s5 (beq_iff_eq.mp hh)),
      if_neg (fun hh => s6 (beq_iff_eq.mp hh))]

theorem gChar_classes (c : Char) :
    isJsWs (gChar c) = isJsWs c ∧ isAsciiDigit (gChar c) = isAsciiDigit c ∧
      isLineTerm (gChar c) = isLineTerm c ∧ ((gChar c = '.') ↔ (c = '.')) := by
  by_cases hf : c ∈ famList
  · fin_cases hf <;> exact ⟨by decide, by decide, by decide, by decide⟩
  · by_cases hs : c ∈ smartList
    · fin_cases hs <;> exact ⟨by decide, by decide, by decide, by decide⟩
    · rw [gChar_id ⟨hf, hs⟩]
      exact ⟨rfl, rfl, rfl, Iff.rfl⟩

theorem gChar_idem (c : Char) : gChar (gChar c) = gChar c := by
  by_cases hf : c ∈ famList
  · fin_cases hf <;> decide
  · by_cases hs : c ∈ smartList
    · fin_cases hs <;> decide
    · rw [gChar_id ⟨hf, hs⟩]
      exact gChar_id ⟨hf, hs⟩

theorem gChar_eq_wj {c : Char} (h : gChar c = '⁠') : c = '⁠' := by
  by_cases hf : c ∈ famList
  · fin_cases hf
    · exact absurd h (by decide)
    · exact absurd h (by decide)
    · exact absurd h (by decide)
    · rfl
    · exact absurd h (by decide)
  · by_cases hs : c ∈ smartList
    · fin_cases hs <;> exact absurd h (by decide)
    · rw [gChar_id ⟨hf, hs⟩] at h
      exact h

theorem gChar_eq_bom {c : Char} (h : gChar c = '﻿') : c = '﻿' := by
  by_cases hf : c ∈ famList
  · fin_cases hf
    · exact absurd h (by decide)
    · exact absurd h (by decide)
    · exact absurd h (by decide)
    · exact absurd h (by decide)
    · rfl
  · by_cases hs : c ∈ smartList
    · fin_cases hs <;> exact absurd h (by decide)
    · rw [gChar_id ⟨hf, hs⟩] at h
      exact h

theorem dotMatch_cons_ne {x : Char} (ds ws S : List Char) (h : x ≠ '.') :
    dotMatch ds ws (x :: S) = none :=
  dotMatch_none_of ds ws (fun w rest he => by
    injection he with h1 _
    exact h h1)

theorem dotMatch_single (ds ws : List Char) (x : Char) :
    dotMatch ds ws [x] = none :=
  dotMatch_none_of ds ws (fun w rest he => by
    injection he with _ h2
    exact absurd h2.symm (List.cons_ne_nil w rest))

theorem dotMatch_cons_dot (ds ws : List Char) (w : Char) (rest : List Char) :
    dotMatch ds ws ('.' :: w :: rest) =
      if ds ≠ [] ∧ isJsWs w = true then some (ws, w, rest) else none := rfl

theorem dotMatch_map_isSome (ds ws S : List Char) :
    (dotMatch (ds.map gChar) (ws.map gChar) (S.map gChar)).isSome
      = (dotMatch ds ws S).isSome := by
  cases S with
  | nil => rfl
  | cons x S' =>
      cases S' with
      | nil =>
          rw [List.map_cons, List.map_nil, dotMatch_single, dotMatch_single]
      | cons w rest =>
          rw [List.map_cons, List.map_cons]
          by_cases hx : x = '.'
          · subst hx
            rw [show gChar '.' = '.' from by decide, dotMatch_cons_dot, dotMatch_cons_dot]
            by_cases hc : ds ≠ [] ∧ isJsWs w = true
            · have hc2 : ds.map gChar ≠ [] ∧ isJsWs (gChar w) = true :=
                ⟨by simpa using hc.1, by rw [(gChar_classes w).1]; exact hc.2⟩
              rw [if_pos hc2, if_pos hc]
              rfl
            · have hc2 : ¬(ds.map gChar ≠ [] ∧ isJsWs (gChar w) = true) := by
                intro hcc
                exact hc ⟨by simpa using hcc.1, by rw [← (gChar_classes w).1]; exact hcc.2⟩
              rw [if_neg hc2, if_neg hc]
          · have hgx : gChar x ≠ '.' := fun he => hx ((gChar_classes x).2.2.2.mp he)
            rw [dotMatch_cons_ne _ _ _ hgx, dotMatch_cons_ne _ _ _ hx]

theorem tryMatch_map_isSome (l : List Char) :
    (tryMatch (l.map gChar)).isSome = (tryMatch l).isSome := by
  have hws : isJsWs ∘ gChar = isJsWs := funext (fun x => (gChar_classes x).1)
  have hdg : isAsciiDigit ∘ gChar = isAsciiDigit := funext (fun x => (gChar_classes x).2.1)
  rw [tryMatch_eq_dot, tryMatch_eq_dot]
  simp only [List.takeWhile_map, List.dropWhile_map]
  rw [hws, hdg]
  exact dotMatch_map_isSome _ _ _

theorem hasMatch_map_g : ∀ (l : List Char) (b : Bool),
    hasMatch b (l.map gChar) = hasMatch b l := by
  intro l
  induction l with
  | nil => intro b; rfl
  | cons c t ih =>
      intro b
      have h1 : hasMatch b ((c :: t).map gChar)
          = ((b && (tryMatch ((c :: t).map gChar)).isSome)
            || hasMatch (isLineTerm (gChar c)) (t.map gChar)) := rfl
      rw [h1, tryMatch_map_isSome, (gChar_classes c).2.2.1, ih, hasMatch_cons]

theorem convertCoreF_cons_true (f : Nat) (c : Char) (t : List Char) :
    convertCoreF (f + 1) true (c :: t)
      = (match tryMatch (c :: t) with
         | some (ws, w, rest) => ws ++ '-' :: ' ' :: convertCoreF f (isLineTerm w) rest
         | none => c :: convertCoreF f (isLineTerm c) t) := rfl

theorem convertCoreF_cons_false2 (f : Nat) (c : Char) (t : List Char) :
    convertCoreF (f + 1) false (c :: t) = c :: convertCoreF f (isLineTerm c) t := rfl

theorem mem_convertCoreF : ∀ (f : Nat) (b : Bool) (l : List Char) (x : Char),
    x ∈ convertCoreF f b l → x ∈ l ∨ x = '-' ∨ x = ' ' := by
  intro f
  induction f with
  | zero =>
      intro b l x hx
      cases l with
      | nil => rw [convertCoreF_nil] at hx; cases hx
      | cons c t => exact Or.inl hx
  | succ f ih =>
      intro b l x hx
      cases l with
      | nil => rw [convertCoreF_nil] at hx; cases hx
      | cons c t =>
          by_cases hb : b = true
          · subst hb
            rw [convertCoreF_cons_true] at hx
            cases hM : tryMatch (c :: t) with
            | none =>
                rw [hM] at hx
                rcases List.mem_cons.mp hx with h1 | h2
                · exact Or.inl (List.mem_cons.mpr (Or.inl h1))
                · rcases ih (isLineTerm c) t x h2 with h3 | h4
                  · exact Or.inl (List.mem_cons_of_mem c h3)
                  · exact Or.inr h4
            | some p =>
                obtain ⟨ws, w, rest⟩ := p
                rw [hM] at hx
                rcases tryMatch_eq_some hM with ⟨hws, hwws, hds, hdec⟩
                rcases List.mem_append.mp hx with h1 | h2
                · refine Or.inl ?_
                  rw [hdec]
                  exact List.mem_append_left _ h1
                · rcases List.mem_cons.mp h2 with h3 | h4
                  · exact Or.inr (Or.inl h3)
                  · rcases List.mem_cons.mp h4 with h5 | h6
                    · exact Or.inr (Or.inr h5)
                    · rcases ih (isLineTerm w) rest x h6 with h7 | h8
                      · refine Or.inl ?_
                        rw [hdec]
                        exact List.mem_append_right _ (List.mem_append_right _
                          (List.mem_cons_of_mem _ (List.mem_cons_of_mem _ h7)))
                      · exact Or.inr h8
          · rw [(Bool.not_eq_true b).mp hb, convertCoreF_cons_false2] at hx
            rcases List.mem_cons.mp hx with h1 | h2
            · exact Or.inl (List.mem_cons.mpr (Or.inl h1))
            · rcases ih (isLineTerm c) t x h2 with h3 | h4
              · exact Or.inl (List.mem_cons_of_mem c h3)
              · exact Or.inr h4

theorem zw_free_convertCore {l : List Char} {z : Char} (hz1 : z ≠ '-') (hz2 : z ≠ ' ')
    (h : z ∉ l) (b : Bool) : z ∉ convertCore b l := by
  intro hmem
  rcases mem_convertCoreF l.length b l z hmem with h1 | h2 | h3
  · exact h h1
  · exact hz1 h2
  · exact hz2 h3

theorem wj_not_mem_map_g {l : List Char} (h : '⁠' ∉ l) : '⁠' ∉ l.map gChar := by
  intro hm
  rcases List.mem_map.mp hm with ⟨c, hcm, hc⟩
  exact h (gChar_eq_wj hc ▸ hcm)

theorem bom_not_mem_map_g {l : List Char} (h : '﻿' ∉ l) : '﻿' ∉ l.map gChar := by
  intro hm
  rcases List.mem_map.mp hm with ⟨c, hcm, hc⟩
  exact h (gChar_eq_bom hc ▸ hcm)

/-- C2 (amended): the composed Text Normalizer (numbered-to-bullet
conversion, then whitespace normalization, then smart-quote ASCII-fication)
is idempotent on every input containing neither U+2060 (word joiner) nor
U+FEFF (zero-width no-break space).  Those two characters are deleted by
the whitespace pass, which runs after the numbered-list pass, so they can
shield a numbered-list pattern during the first application only. -/
theorem normalizer_idempotent (l : List Char)
    (h1 : '⁠' ∉ l) (h2 : '﻿' ∉ l) :
    textNormalizer (textNormalizer l) = textNormalizer l := by
  have hgg : gChar ∘ gChar = gChar := funext gChar_idem
  have hX1 : '⁠' ∉ convertCore true l :=
    zw_free_convertCore (by decide) (by decide) h1 true
  have hX2 : '﻿' ∉ convertCore true l :=
    zw_free_convertCore (by decide) (by decide) h2 true
  have hstep : textNormalizer l = (convertCore true l).map gChar := by
    show normalizeText (convertCore true l) = _
    exact normalizeText_eq_map hX1 hX2
  have hY1 := wj_not_mem_map_g hX1
  have hY2 := bom_not_mem_map_g hX2
  have hnm : hasMatch true ((convertCore true l).map gChar) = false := by
    rw [hasMatch_map_g]
    exact hasMatch_convertCore l.length l true le_rfl
  have hfix : convertCore true ((convertCore true l).map gChar)
      = (convertCore true l).map gChar :=
    convertCore_fix_of_noMatch ((convertCore true l).map gChar).length _ true le_rfl hnm
  rw [hstep]
  show normalizeText (convertCore true ((convertCore true l).map gChar)) = _
  rw [hfix, normalizeText_eq_map hY1 hY2, List.map_map, hgg]

/-- The unrestricted idempotence claim fails: prefixing a numbered line
with the word joiner U+2060 blocks the list rewrite in the first pass,
the whitespace pass then deletes the joiner, and the second pass rewrites
the now-exposed numbered line. -/
theorem normalizer_not_idempotent_counterexample :
    textNormalizer (textNormalizer ('⁠' :: "1. x".data)) ≠
      textNormalizer ('⁠' :: "1. x".data) := by decide

/-- Witness: the amended idempotence theorem applied to the concrete
input "1. x", whose first pass already performs a rewrite. -/
theorem normalizer_idempotent_witness :
    ('⁠' ∉ "1. x".data ∧ '﻿' ∉ "1. x".data) ∧
      textNormalizer (textNormalizer "1. x".data) = textNormalizer "1. x".data :=
  ⟨⟨by decide, by decide⟩, normalizer_idempotent "1. x".data (by decide) (by decide)⟩

/-! ## The table-header rewrite on an empty single-row table (C3) -/

/-- C3 (amended): when the first row of a table has no header cell below it,
is empty (no data cells, or every data cell's trimmed text is empty), and no
further row exists after its removal, processHtml's per-table fix still
discards that first row: firstRow.remove runs before the search for a next
row, so the table is changed, not left unchanged. -/
theorem empty_first_row_discarded (cs : HForest) (row : HNode)
    (h1 : forestFirstTag "tr".data cs = some row)
    (h2 : rowHasTh row = false)
    (h3 : ((rowTds row).isEmpty
      || (rowTds row).all (fun c => (jsTrim (nodeText c)).isEmpty)) = true)
    (h4 : forestFirstTag "tr".data (forestRemoveFirst "tr".data cs).1 = none) :
    tableFix cs = (forestRemoveFirst "tr".data cs).1 := by
  have e : tableFix cs =
      (if rowHasTh row then cs
       else if ((rowTds row).isEmpty
           || (rowTds row).all (fun c => (jsTrim (nodeText c)).isEmpty)) then
         (match forestFirstTag "tr".data (forestRemoveFirst "tr".data cs).1 with
          | none => (forestRemoveFirst "tr".data cs).1
          | some _ => (forestRetagFirstTr (forestRemoveFirst "tr".data cs).1).1)
       else (forestRetagFirstTr cs).1) := by
    unfold tableFix
    rw [h1]
  have hne : ¬(rowHasTh row = true) := fun hc => Bool.false_ne_true (h2 ▸ hc)
  rw [e, if_neg hne, if_pos h3, h4]

/-- Witness: the discarding theorem applied to a table whose children are a
single empty tr element. -/
theorem empty_first_row_discarded_witness :
    (forestFirstTag "tr".data (HForest.cons (HNode.elem "tr".data HForest.nil) HForest.nil)
        = some (HNode.elem "tr".data HForest.nil) ∧
      rowHasTh (HNode.elem "tr".data HForest.nil) = false ∧
      ((rowTds (HNode.elem "tr".data HForest.nil)).isEmpty
        || (rowTds (HNode.elem "tr".data HForest.nil)).all
            (fun c => (jsTrim (nodeText c)).isEmpty)) = true ∧
      forestFirstTag "tr".data
        (forestRemoveFirst "tr".data
          (HForest.cons (HNode.elem "tr".data HForest.nil) HForest.nil)).1 = none) ∧
    tableFix (HForest.cons (HNode.elem "tr".data HForest.nil) HForest.nil)
      = (forestRemoveFirst "tr".data
          (HForest.cons (HNode.elem "tr".data HForest.nil) HForest.nil)).1 :=
  ⟨⟨by decide, by decide, by decide, by decide⟩,
    empty_first_row_discarded (HForest.cons (HNode.elem "tr".data HForest.nil) HForest.nil)
      (HNode.elem "tr".data HForest.nil) (by decide) (by decide) (by decide) (by decide)⟩

/-- The claim that such a table is left unchanged fails: a table holding one
empty row serializes differently after processHtml, which deletes the row. -/
theorem empty_first_row_unchanged_counterexample :
    processHtmlSer (HForest.cons (HNode.elem "table".data
        (HForest.cons (HNode.elem "tr".data HForest.nil) HForest.nil)) HForest.nil)
      ≠ forestSer (HForest.cons (HNode.elem "table".data
        (HForest.cons (HNode.elem "tr".data HForest.nil) HForest.nil)) HForest.nil) := by
  decide

/-! ## The bullet pass and ordered lists (C4) -/

/-- Equation lemma for the bullet pass on a text node. -/
theorem spNode_text (u : Bool) (s : List Char) : spNode u (.text s) = .text s := rfl

/-- Equation lemma for the bullet pass on an element node. -/
theorem spNode_elem (u : Bool) (tag : List Char) (cs : HForest) :
    spNode u (.elem tag cs) =
      (if tag == "li".data && u then
        (match bulletMatchLen (forestSer cs) with
         | some k => HNode.elem tag (forestDropChars cs k)
         | none => HNode.elem tag (spForest u cs))
       else HNode.elem tag (spForest (u || tag == "ul".data) cs)) := rfl

/-- Equation lemma for the bullet pass on a forest. -/
theorem spForest_cons (u : Bool) (n : HNode) (ns : HForest) :
    spForest u (.cons n ns) = .cons (spNode u n) (spForest u ns) := rfl

/-- Every node has positive size. -/
theorem nodeSize_pos : ∀ (n : HNode), 1 ≤ nodeSize n := by
  intro n
  cases n with
  | text s => exact Nat.le_refl 1
  | elem tag cs =>
      show 1 ≤ 1 + forestSize cs
      omega

/-- In a subtree containing no unordered-list element, the bullet pass
started outside any ul is the identity, by induction on size. -/
theorem sp_noUl (k : Nat) :
    (∀ (n : HNode), nodeSize n ≤ k → nodeHasTag "ul".data n = false →
      spNode false n = n) ∧
    (∀ (ns : HForest), forestSize ns ≤ k → forestHasTag "ul".data ns = false →
      spForest false ns = ns) := by
  induction k with
  | zero =>
      constructor
      · intro n hs _
        exact absurd hs (by have := nodeSize_pos n; omega)
      · intro ns hs _
        cases ns with
        | nil => rfl
        | cons n ns' =>
            refine absurd hs ?_
            intro hc
            have h1 := nodeSize_pos n
            have h2 : forestSize (HForest.cons n ns') = nodeSize n + forestSize ns' := rfl
            rw [h2] at hc
            omega
  | succ k ih =>
      have hnode : ∀ (n : HNode), nodeSize n ≤ k + 1 → nodeHasTag "ul".data n = false →
          spNode false n = n := by
        intro n hs ht
        cases n with
        | text s => rfl
        | elem tag cs =>
            have hueq : nodeHasTag "ul".data (HNode.elem tag cs)
                = (tag == "ul".data || forestHasTag "ul".data cs) := rfl
            rw [hueq] at ht
            rcases Bool.or_eq_false_iff.mp ht with ⟨ht1, ht2⟩
            have hsz : nodeSize (HNode.elem tag cs) = 1 + forestSize cs := rfl
            rw [hsz] at hs
            rw [spNode_elem, Bool.and_false, if_neg Bool.false_ne_true, Bool.false_or, ht1]
            exact congrArg (HNode.elem tag) (ih.2 cs (by omega) ht2)
      refine ⟨hnode, ?_⟩
      intro ns hs ht
      cases ns with
      | nil => rfl
      | cons n ns' =>
          have hfeq : forestHasTag "ul".data (HForest.cons n ns')
              = (nodeHasTag "ul".data n || forestHasTag "ul".data ns') := rfl
          rw [hfeq] at ht
          rcases Bool.or_eq_false_iff.mp ht with ⟨ht1, ht2⟩
          have hsz : forestSize (HForest.cons n ns') = nodeSize n + forestSize ns' := rfl
          rw [hsz] at hs
          have hp := nodeSize_pos n
          rw [spForest_cons, hnode n (by omega) ht1, ih.2 ns' (by omega) ht2]

/-- C4 (amended): the bullet pass matches the descendant selector ul li, so
on a document whose table-phase output contains no unordered list it is the
identity; in particular every ordered-list item, bullet glyph or not, is
untouched.  Ordered-list items ARE altered when their ol sits inside an
unordered list, since such items still have a ul ancestor. -/
theorem bullet_pass_no_ul_identity (ns : HForest)
    (h : forestHasTag "ul".data (tablePhase ns) = false) :
    processHtml ns = tablePhase ns := by
  show spForest false (tablePhase ns) = tablePhase ns
  exact (sp_noUl (forestSize (tablePhase ns))).2 (tablePhase ns) le_rfl h

/-- Witness: a stand-alone ordered list whose item starts with a bullet
glyph passes through processHtml unchanged by the bullet pass. -/
theorem bullet_pass_no_ul_identity_witness :
    forestHasTag "ul".data (tablePhase (HForest.cons (HNode.elem "ol".data
        (HForest.cons (HNode.elem "li".data
          (HForest.cons (HNode.text "• Hello".data) HForest.nil)) HForest.nil))
        HForest.nil)) = false ∧
    processHtml (HForest.cons (HNode.elem "ol".data
        (HForest.cons (HNode.elem "li".data
          (HForest.cons (HNode.text "• Hello".data) HForest.nil)) HForest.nil))
        HForest.nil)
      = tablePhase (HForest.cons (HNode.elem "ol".data
        (HForest.cons (HNode.elem "li".data
          (HForest.cons (HNode.text "• Hello".data) HForest.nil)) HForest.nil))
        HForest.nil) :=
  ⟨by decide, bullet_pass_no_ul_identity _ (by decide)⟩

/-- The unrestricted claim fails: an ordered list nested in an unordered
list has its item's leading bullet glyph stripped, because the item matches
the ul li selector through its ul ancestor. -/
theorem ol_item_stripped_counterexample :
    processHtmlSer (HForest.cons (HNode.elem "ul".data (HForest.cons (HNode.elem "li".data
        (HForest.cons (HNode.elem "ol".data (HForest.cons (HNode.elem "li".data
          (HForest.cons (HNode.text "• Hello".data) HForest.nil)) HForest.nil)) HForest.nil))
        HForest.nil)) HForest.nil)
      = "<ul><li><ol><li>Hello</li></ol></li></ul>".data := by decide
